import Mathlib

/-!
# Verification of the wizards-wallet consensus core

A shallow embedding, in Lean 4, of the parts of the `wizards-wallet`
repository that the frozen claims C1–C10 speak about:

* the binary wire codec (`src/bitcoin/network/serialize.rs`),
* the 256-bit integer arithmetic (`src/bitcoin/util/uint256.rs`),
* the Patricia/radix tree (`src/bitcoin/util/patricia_tree.rs`),
* the UTXO set (`src/bitcoin/blockdata/utxoset.rs`),
* the header chain (`src/bitcoin/blockdata/blockchain.rs`).

Machine integers are embedded as `Nat` with explicit `% 2^w` reductions at
every point where the Rust code can overflow or wrap.  Fallible code returns
`Option`.  Code of the repository that is not present under `src/` (the
SHA-256 primitive consumed from the external `crypto` crate, the
`Serializable::hash` default method, `ThinVec`, `Sha256dHash::as_uint128`,
and the `BlockHeader::target/work/spv_validate` helpers that this snapshot
of `block.rs` does not yet contain) is modelled from the specification and
is marked `Modelled from the spec:` in its doc comment.
-/

namespace WizardsWallet

/-! ## SHA-256

Modelled from the spec: the specification consumes "an opaque double-SHA-256
hash function" (spec §1, §3); the SHA-256 compression itself lives in the
external `crypto` crate, outside this repository.  We model it by the
standard FIPS 180-4 SHA-256 algorithm, which is what that crate implements;
the repository's own test vectors for `Sha256dHash::from_data` are checked
against this model below (`sha256d_vector_empty`, `sha256d_vector_TEST`).
-/

/-- 32-bit truncation. -/
def m32 (x : Nat) : Nat := x % 4294967296

/-- Right rotation of a 32-bit word. -/
def rotr32 (n x : Nat) : Nat := m32 ((x >>> n) ||| (x <<< (32 - n)))

/-- The 64 SHA-256 round constants (FIPS 180-4, in decimal). -/
def shaK : List Nat :=
  [1116352408, 1899447441, 3049323471, 3921009573, 961987163, 1508970993,
   2453635748, 2870763221, 3624381080, 310598401, 607225278, 1426881987,
   1925078388, 2162078206, 2614888103, 3248222580, 3835390401, 4022224774,
   264347078, 604807628, 770255983, 1249150122, 1555081692, 1996064986,
   2554220882, 2821834349, 2952996808, 3210313671, 3336571891, 3584528711,
   113926993, 338241895, 666307205, 773529912, 1294757372, 1396182291,
   1695183700, 1986661051, 2177026350, 2456956037, 2730485921, 2820302411,
   3259730800, 3345764771, 3516065817, 3600352804, 4094571909, 275423344,
   430227734, 506948616, 659060556, 883997877, 958139571, 1322822218,
   1537002063, 1747873779, 1955562222, 2024104815, 2227730452, 2361852424,
   2428436474, 2756734187, 3204031479, 3329325298]

/-- The SHA-256 initial state (FIPS 180-4, in decimal). -/
def shaH0 : List Nat :=
  [1779033703, 3144134277, 1013904242, 2773480762,
   1359893119, 2600822924, 528734635, 1541459225]

/-- Append the FIPS 180-4 padding to a byte string. -/
def shaPad (msg : List Nat) : List Nat :=
  let bitLen := 8 * msg.length
  let zeroes := (64 - (msg.length + 9) % 64) % 64
  msg ++ [0x80] ++ List.replicate zeroes 0 ++
    [bitLen / 2^56 % 256, bitLen / 2^48 % 256, bitLen / 2^40 % 256,
     bitLen / 2^32 % 256, bitLen / 2^24 % 256, bitLen / 2^16 % 256,
     bitLen / 2^8 % 256, bitLen % 256]

/-- Group a padded byte string into big-endian 32-bit words. -/
def shaWords : List Nat → List Nat
  | b0 :: b1 :: b2 :: b3 :: rest =>
      (b0 * 2^24 + b1 * 2^16 + b2 * 2^8 + b3) :: shaWords rest
  | _ => []

/-- Split a word string into 16-word blocks (fuel-structured recursion so
that the kernel can evaluate it; the fuel is always sufficient). -/
def shaBlocksGo : Nat → List Nat → List (List Nat)
  | 0, _ => []
  | fuel + 1, ws =>
      if ws.length < 16 then []
      else ws.take 16 :: shaBlocksGo fuel (ws.drop 16)

/-- Split a word string into 16-word blocks. -/
def shaBlocks (ws : List Nat) : List (List Nat) := shaBlocksGo ws.length ws

/-- Message-schedule extension, on the reversed schedule list. -/
def shaExtend : Nat → List Nat → List Nat
  | 0, revW => revW
  | n + 1, revW =>
      let w2 := revW.getD 1 0
      let w7 := revW.getD 6 0
      let w15 := revW.getD 14 0
      let w16 := revW.getD 15 0
      let s0 := (rotr32 7 w15) ^^^ (rotr32 18 w15) ^^^ (w15 >>> 3)
      let s1 := (rotr32 17 w2) ^^^ (rotr32 19 w2) ^^^ (w2 >>> 10)
      shaExtend n (m32 (w16 + s0 + w7 + s1) :: revW)

/-- The 64-entry message schedule of one block. -/
def shaSchedule (block : List Nat) : List Nat :=
  (shaExtend 48 block.reverse).reverse

/-- One SHA-256 round: state is the 8-word list `[a,b,c,d,e,f,g,h]`. -/
def shaRound (st : List Nat) (kw : Nat × Nat) : List Nat :=
  match st with
  | [a, b, c, d, e, f, g, h] =>
      let S1 := (rotr32 6 e) ^^^ (rotr32 11 e) ^^^ (rotr32 25 e)
      let ch := (e &&& f) ^^^ ((4294967295 - e) &&& g)
      let temp1 := m32 (h + S1 + ch + kw.1 + kw.2)
      let S0 := (rotr32 2 a) ^^^ (rotr32 13 a) ^^^ (rotr32 22 a)
      let maj := (a &&& b) ^^^ (a &&& c) ^^^ (b &&& c)
      let temp2 := m32 (S0 + maj)
      [m32 (temp1 + temp2), a, b, c, m32 (d + temp1), e, f, g]
  | other => other

/-- SHA-256 compression of one block into the running state. -/
def shaCompress (st : List Nat) (block : List Nat) : List Nat :=
  let w := shaSchedule block
  let out := (shaK.zip w).foldl shaRound st
  (st.zip out).map (fun p => m32 (p.1 + p.2))

/-- SHA-256 digest of a byte string, as the 8-word final state. -/
def sha256Words (msg : List Nat) : List Nat :=
  (shaBlocks (shaWords (shaPad msg))).foldl shaCompress shaH0

/-- Serialize 32-bit words into big-endian bytes. -/
def wordsToBytes : List Nat → List Nat
  | [] => []
  | w :: rest => (w / 2^24 % 256) :: (w / 2^16 % 256) :: (w / 2^8 % 256) ::
      (w % 256) :: wordsToBytes rest

/-- SHA-256 digest of a byte string, as 32 bytes. -/
def sha256 (msg : List Nat) : List Nat := wordsToBytes (sha256Words msg)

/-- Double SHA-256: `Sha256dHash::from_data` (src/bitcoin/util/hash.rs). -/
def sha256d (msg : List Nat) : List Nat := sha256 (sha256 msg)

/-! ## Byte-level little-endian primitives (src/bitcoin/network/serialize.rs) -/

/-- `n` little-endian bytes of `x` (used by the u16/u32/u64 serializers and
by `Sha256dHash::serialize`, which emits the 32 raw bytes). -/
def leBytes : Nat → Nat → List Nat
  | 0, _ => []
  | n + 1, x => (x % 256) :: leBytes n (x / 256)

/-- `read_uint_le`: fold bytes little-endian into a value. -/
def leVal (bs : List Nat) : Nat := bs.foldr (fun b acc => b + 256 * acc) 0

/-- Take `n` bytes off a stream, failing on short input (`FixedTake`). -/
def readN (n : Nat) (s : List Nat) : Option (List Nat × List Nat) :=
  if s.length < n then none else some (s.take n, s.drop n)

/-- Serializer for `u16` (little-endian). -/
def encU16 (x : Nat) : List Nat := leBytes 2 x

/-- Serializer for `u32` (little-endian). -/
def encU32 (x : Nat) : List Nat := leBytes 4 x

/-- Serializer for `u64` (little-endian). -/
def encU64 (x : Nat) : List Nat := leBytes 8 x

/-- Deserializer for `u16`. -/
def decU16 (s : List Nat) : Option (Nat × List Nat) :=
  (readN 2 s).map (fun p => (leVal p.1, p.2))

/-- Deserializer for `u32`. -/
def decU32 (s : List Nat) : Option (Nat × List Nat) :=
  (readN 4 s).map (fun p => (leVal p.1, p.2))

/-- Deserializer for `u64`. -/
def decU64 (s : List Nat) : Option (Nat × List Nat) :=
  (readN 8 s).map (fun p => (leVal p.1, p.2))

/-! ## VarInt (src/bitcoin/network/serialize.rs, `u64_to_varint` and the
`Serializable` impl for `VarInt`) -/

/-- `u64_to_varint` followed by `VarInt::serialize`: smallest encoding. -/
def encVarInt (n : Nat) : List Nat :=
  if n < 0xFD then [n]
  else if n ≤ 0xFFFF then 0xFD :: encU16 n
  else if n ≤ 0xFFFFFFFF then 0xFE :: encU32 n
  else 0xFF :: encU64 n

/-- `VarInt::deserialize` followed by `varint_to_u64`. -/
def decVarInt : List Nat → Option (Nat × List Nat)
  | [] => none
  | b :: rest =>
      if b < 0xFD then some (b, rest)
      else if b = 0xFD then decU16 rest
      else if b = 0xFE then decU32 rest
      else if b = 0xFF then decU64 rest
      else none

/-! ## String and CommandString (src/bitcoin/network/serialize.rs)

A Rust `String` is modelled as the list of the Unicode scalar values of its
characters; `String::as_bytes` (a language primitive, not repository code)
is modelled by standard UTF-8 encoding of each scalar value. -/

/-- Standard UTF-8 encoding of one Unicode scalar value (models
`str::as_bytes`, which is defined by the Rust language as UTF-8). -/
def utf8EncodeChar (c : Nat) : List Nat :=
  if c < 0x80 then [c]
  else if c < 0x800 then [0xC0 + c / 64, 0x80 + c % 64]
  else if c < 0x10000 then [0xE0 + c / 4096, 0x80 + c / 64 % 64, 0x80 + c % 64]
  else [0xF0 + c / 262144, 0x80 + c / 4096 % 64, 0x80 + c / 64 % 64, 0x80 + c % 64]

/-- The UTF-8 byte string of a Rust `String`. -/
def strBytes (s : List Nat) : List Nat :=
  s.foldr (fun c acc => utf8EncodeChar c ++ acc) []

/-- `impl Serializable for String::serialize`: VarInt length + UTF-8 bytes. -/
def encString (s : List Nat) : List Nat :=
  encVarInt (strBytes s).length ++ strBytes s

/-- `impl Serializable for String::deserialize`: reads the VarInt length,
takes that many bytes, and maps **each byte** to a char (`|u| u as char`). -/
def decString (s : List Nat) : Option (List Nat × List Nat) := do
  let (len, rest) ← decVarInt s
  let (bs, rest) ← readN len rest
  return (bs, rest)

/-- `impl Serializable for CommandString::serialize`: the string's bytes
copied into a 12-byte zero buffer (`copy_from` copies at most 12). -/
def encCommandString (s : List Nat) : List Nat :=
  let bs := (strBytes s).take 12
  bs ++ List.replicate (12 - bs.length) 0

/-- `impl Serializable for CommandString::deserialize`: take 12 bytes and
keep each nonzero byte as a char (`filter_map(|u| if u > 0 ...)`). -/
def decCommandString (s : List Nat) : Option (List Nat × List Nat) := do
  let (bs, rest) ← readN 12 s
  return (bs.filter (fun u => decide (0 < u)), rest)

/-! ## CheckedData (src/bitcoin/network/serialize.rs) -/

/-- `sha2_checksum`: little-endian u32 of the first 4 bytes of the double
SHA-256 of the data. -/
def sha2Checksum (data : List Nat) : Nat := leVal ((sha256d data).take 4)

/-- `impl Serializable for CheckedData::serialize`. -/
def encCheckedData (data : List Nat) : List Nat :=
  encU32 (data.length % 2^32) ++ encU32 (sha2Checksum data) ++ data

/-- `impl Serializable for CheckedData::deserialize`. -/
def decCheckedData (s : List Nat) : Option (List Nat × List Nat) := do
  let (length, rest) ← decU32 s
  let (checksum, rest) ← decU32 rest
  let (payload, rest) ← readN length rest
  if checksum = sha2Checksum payload then return (payload, rest) else none

/-! ## Transaction and header serialization

`Script` is a byte vector serialized as `Vec<u8>`
(src/bitcoin/blockdata/script.rs); transactions serialize their fields in
the order given by `impl_serializable!(Transaction, version, input, output,
lock_time)` (src/bitcoin/blockdata/transaction.rs); the generic `Vec<T>`
serializer emits a smallest VarInt length followed by the elements
(src/bitcoin/network/serialize.rs). -/

/-- A transaction input (src/bitcoin/blockdata/transaction.rs).  The 32-byte
`prev_hash` is carried as the little-endian `Nat` value of its bytes. -/
structure TxIn where
  prevHash : Nat
  prevIndex : Nat
  scriptSig : List Nat
  sequence : Nat
deriving Repr, DecidableEq

/-- A transaction output (src/bitcoin/blockdata/transaction.rs). -/
structure TxOut where
  value : Nat
  scriptPubkey : List Nat
deriving Repr, DecidableEq

/-- A transaction (src/bitcoin/blockdata/transaction.rs). -/
structure Transaction where
  version : Nat
  lockTime : Nat
  input : List TxIn
  output : List TxOut
deriving Repr, DecidableEq

/-- Generic `Vec<T>` serialization: VarInt length then the elements. -/
def encVec {α : Type} (enc : α → List Nat) (l : List α) : List Nat :=
  encVarInt l.length ++ l.foldr (fun x acc => enc x ++ acc) []

/-- `Script::serialize` = its byte vector serialized as `Vec<u8>`. -/
def encScript (s : List Nat) : List Nat := encVec (fun b => [b]) s

/-- `TxIn::serialize` (field order `prev_hash, prev_index, script_sig,
sequence`). -/
def encTxIn (i : TxIn) : List Nat :=
  leBytes 32 i.prevHash ++ encU32 i.prevIndex ++ encScript i.scriptSig ++
    encU32 i.sequence

/-- `TxOut::serialize` (field order `value, script_pubkey`). -/
def encTxOut (o : TxOut) : List Nat :=
  encU64 o.value ++ encScript o.scriptPubkey

/-- `Transaction::serialize` (field order `version, input, output,
lock_time`). -/
def encTx (tx : Transaction) : List Nat :=
  encU32 tx.version ++ encVec encTxIn tx.input ++ encVec encTxOut tx.output ++
    encU32 tx.lockTime

/-- Modelled from the spec: `Serializable::hash` (the trait's default
method, not present in this snapshot's serialize.rs) — "Identity =
double-SHA-256 of its canonical serialization" (spec §3).  The result is
carried as the little-endian `Nat` value of the 32 digest bytes, which is
how `Sha256dHash::as_uint256` reads it. -/
def txidNat (tx : Transaction) : Nat := leVal (sha256d (encTx tx))

/-- Modelled from the spec: `Sha256dHash::as_uint128` (not present in this
snapshot's hash.rs) — "a 128-bit prefix of the transaction id
(little-endian)" (spec §3), i.e. the low 128 bits of the id. -/
def hashLow128 (h : Nat) : Nat := h % 2^128

/-! ## Uint256 (src/bitcoin/util/uint256.rs)

A `Uint256` is four little-endian `u64` words; we embed its value as a
`Nat` below `2^256` and each operation as the corresponding `Nat`
computation, with explicit `% 2^256` (or per-word `% 2^64`) where the Rust
words wrap.  `mul_u32` is embedded word by word, because its per-word
low-part addition `lower + (upper << 32)` is a wrapping `u64` addition whose
carry the Rust code discards. -/

/-- Bit-length helper with explicit fuel (values are below `2^256`, so
256 units always suffice). -/
def bitLenGo : Nat → Nat → Nat
  | 0, _ => 0
  | f + 1, x => if x = 0 then 0 else bitLenGo f (x / 2) + 1

/-- `Uint256::bits`: minimal bit length (0 for 0). -/
def bitsU (x : Nat) : Nat := bitLenGo 256 x

/-- `Uint256::shl`: left shift, truncated to 256 bits (a shift of 256 or
more clears the number, as the word loop writes nothing). -/
def shlU (x s : Nat) : Nat := (x * 2^s) % 2^256

/-- `Uint256::shr`: logical right shift. -/
def shrU (x s : Nat) : Nat := x / 2^s

/-- `Uint256::mask`: keep the low `n` bits (for `n ≥ 0x100` the Rust code
returns the value unchanged, which coincides with `% 2^n` since values are
below `2^256`). -/
def maskU (x n : Nat) : Nat := x % 2^n

/-- `Uint256::bit_slice`: the bits from `start` to `end`. -/
def bitSliceU (x s e : Nat) : Nat := maskU (shrU x s) (e - s)

/-- `Uint256::bit_value` (all call sites use an index below 256). -/
def bitValueU (x i : Nat) : Bool := x.testBit i

/-- `Uint256::add`: addition modulo `2^256`. -/
def addU (a b : Nat) : Nat := (a + b) % 2^256

/-- `Uint256::sub`: two's-complement subtraction modulo `2^256`
(arguments are below `2^256`). -/
def subU (a b : Nat) : Nat := (a + (2^256 - b)) % 2^256

/-- `Uint256::div`: bitwise long division = floor division. -/
def divU (a b : Nat) : Nat := a / b

/-- Word `i` of a `Uint256`. -/
def w64 (x i : Nat) : Nat := x / 2^(64 * i) % 2^64

/-- `Uint256::mul_u32`, word by word.  For each word the code computes
`ret[i] = lower + (upper << 32)` as a wrapping `u64` addition and
`carry[i+1] = upper >> 32`; a carry out of `ret[i]` is lost. -/
def mulU32 (x c : Nat) : Nat :=
  let retw := fun i =>
    (c * (w64 x i % 2^32) + (c * (w64 x i / 2^32) * 2^32) % 2^64) % 2^64
  let carw := fun i => c * (w64 x i / 2^32) / 2^32
  ((retw 0 + retw 1 * 2^64 + retw 2 * 2^128 + retw 3 * 2^192) +
   (carw 0 * 2^64 + carw 1 * 2^128 + carw 2 * 2^192)) % 2^256

/-- Trailing-zero helper with explicit fuel (`tzGo 64 0 = 64`, matching
`u64::trailing_zeros(0)` in the 2014 Rust of this repository). -/
def tzGo : Nat → Nat → Nat
  | 0, _ => 0
  | f + 1, x => if x % 2 = 1 then 0 else 1 + tzGo f (x / 2)

/-- `Uint256::trailing_zeros` (256 for zero, scanning words upward). -/
def trailingZerosU (x : Nat) : Nat := tzGo 256 (x % 2^256)

/-- `Uint256::xor`. -/
def xorU (a b : Nat) : Nat := a ^^^ b

/-! ## Difficulty retargeting (src/bitcoin/blockdata/blockchain.rs and
src/bitcoin/blockdata/constants.rs) -/

/-- `DIFFCHANGE_INTERVAL`. -/
def DIFFCHANGE_INTERVAL : Nat := 2016

/-- `DIFFCHANGE_TIMESPAN` = 14 · 24 · 3600. -/
def DIFFCHANGE_TIMESPAN : Nat := 14 * 24 * 3600

/-- `max_target()` = 0xFFFF << 208. -/
def maxTarget : Nat := shlU 0xFFFF 208

/-- `satoshi_the_precision`: drop the precision of a target to what the
compact `nBits` form can carry.  `bits` is `uint` arithmetic, so the inner
`(n.bits() + 7) / 8 - 3` wraps below zero (the shift then clears the
value, exactly as the Rust word loops do for oversized shifts). -/
def satoshiThePrecision (n : Nat) : Nat :=
  let bits := (8 * (((bitsU n + 7) / 8 + 2^64 - 3) % 2^64)) % 2^64
  let ret := shrU n bits
  let ret := if bitValueU ret 23 then shlU (shrU ret 8) 8 else ret
  shlU ret bits

/-- Modelled from the spec: `BlockHeader::target()` (this snapshot's
block.rs does not yet contain it) — "Compact bits: 32-bit floating encoding
of a 256-bit target" in "the 8+24 nBits float format" (spec glossary,
§4.3): a 24-bit mantissa scaled by 256^(exponent−3). -/
def targetOf (bits : Nat) : Nat :=
  let mant := bits % 2^24
  let e := bits / 2^24 % 256
  if e ≤ 3 then shrU mant (8 * (3 - e)) else shlU mant (8 * (e - 3))

/-- Modelled from the spec: `BlockHeader::work()` (absent from this
snapshot's block.rs) — "work = (2^256) / (target + 1)" (spec §4.3 step 4). -/
def workOf (bits : Nat) : Nat := 2^256 / (targetOf bits + 1)

/-- The clamped retarget timespan: `prev.time - scan.time` is a wrapping
`u32` subtraction, then clamped to `[TIMESPAN/4, TIMESPAN*4]`
(`real_add_block`, src/bitcoin/blockdata/blockchain.rs lines 362–366). -/
def retargetTimespan (prevTime scanTime : Nat) : Nat :=
  let n := (prevTime + 2^32 - scanTime % 2^32) % 2^32
  if n < DIFFCHANGE_TIMESPAN / 4 then DIFFCHANGE_TIMESPAN / 4
  else if n > DIFFCHANGE_TIMESPAN * 4 then DIFFCHANGE_TIMESPAN * 4
  else n

/-- The retarget computation of `real_add_block` (lines 367–375): take the
parent's target, multiply by the clamped timespan with `mul_u32`, divide by
`DIFFCHANGE_TIMESPAN`, clamp below `max_target()`, and truncate with
`satoshi_the_precision`. -/
def retargetRequired (prevBits timespan : Nat) : Nat :=
  let target := mulU32 (targetOf prevBits) timespan
  let target := divU target DIFFCHANGE_TIMESPAN
  let target := if target > maxTarget then maxTarget else target
  satoshiThePrecision target

/-- The same computation as the claim states it: `target = min(MAX_TARGET,
parent.target * timespan / TARGET_TIMESPAN)` with exact integer
multiplication, then the compact truncation with
`B = 8·(⌈bits(target)/8⌉ − 3)`. -/
def claimRequiredBits (prevBits timespan : Nat) : Nat :=
  let target := min maxTarget (targetOf prevBits * timespan / DIFFCHANGE_TIMESPAN)
  let b := 8 * ((bitsU target + 7) / 8 - 3)
  let ret := shrU target b
  let ret := if bitValueU ret 23 then shlU (shrU ret 8) 8 else ret
  shlU ret b

/-! ## The Patricia tree (src/bitcoin/util/patricia_tree.rs)

`PatriciaTree<T>` holds an optional value, two optional boxed children, a
`skip_prefix : Uint256` and a `skip_len : u8`.  Keys are `(Uint256,
key_len)` pairs; only the low `key_len` bits of the key are inspected.
`skip_len` is a `u8`, so every store into it is reduced `% 256` exactly
where the Rust byte arithmetic wraps. -/

inductive PTree (V : Type) : Type where
  | node (data : Option V) (childL childR : Option (PTree V))
      (skipPrefix : Nat) (skipLen : Nat)
deriving Repr

namespace PTree

variable {V : Type}

/-- `PatriciaTree::new`. -/
def new : PTree V := .node none none none 0 0

/-- Field accessors. -/
def data : PTree V → Option V | .node d _ _ _ _ => d

def childL : PTree V → Option (PTree V) | .node _ l _ _ _ => l

def childR : PTree V → Option (PTree V) | .node _ _ r _ _ => r

def skipPrefix : PTree V → Nat | .node _ _ _ p _ => p

def skipLen : PTree V → Nat | .node _ _ _ _ n => n

/-- The loop body of `PatriciaTree::lookup`, with the loop expressed as
structural recursion into the child.  `key_idx` only ever grows while
staying at most `key_len`, so the `uint` subtraction `key_len - key_idx`
is ordinary `Nat` subtraction. -/
def lookupGo : PTree V → Nat → Nat → Nat → Option V
  | .node d l r pre len, key, keyLen, idx =>
      if keyLen - idx < len then none
      else if pre ≠ bitSliceU key idx (idx + len) then none
      else if len = keyLen - idx then d
      else
        let idx' := idx + 1 + len
        if bitValueU key (idx' - 1) then
          match r with
          | some t => lookupGo t key keyLen idx'
          | none => none
        else
          match l with
          | some t => lookupGo t key keyLen idx'
          | none => none

/-- `PatriciaTree::lookup` (and `lookup_mut`, which is the same search). -/
def lookup (t : PTree V) (key keyLen : Nat) : Option V :=
  lookupGo t key keyLen 0

/-- Functional stand-in for mutation through `lookup_mut`: rewrite the
data stored at the exact node the search finds.  The search path is the
one of `lookupGo`. -/
def updateGo (f : V → V) : PTree V → Nat → Nat → Nat → PTree V
  | .node d l r pre len, key, keyLen, idx =>
      if keyLen - idx < len then .node d l r pre len
      else if pre ≠ bitSliceU key idx (idx + len) then .node d l r pre len
      else if len = keyLen - idx then .node (d.map f) l r pre len
      else
        let idx' := idx + 1 + len
        if bitValueU key (idx' - 1) then
          match r with
          | some t => .node d l (some (updateGo f t key keyLen idx')) pre len
          | none => .node d l r pre len
        else
          match l with
          | some t => .node d (some (updateGo f t key keyLen idx')) r pre len
          | none => .node d l r pre len

/-- Rewrite the value stored at `key` (no-op when absent). -/
def update (t : PTree V) (key keyLen : Nat) (f : V → V) : PTree V :=
  updateGo f t key keyLen 0

/-- The loop body of `PatriciaTree::insert`.  The loop mutates `node` and
re-enters; here each iteration rebuilds the node around the recursive
result.  The recursion is fuelled: each iteration advances `idx` by at
least one and `idx ≤ key_len`, so `key_len + 1` units are always enough
(`insert` below supplies them). -/
def insertGo (value : V) (key keyLen : Nat) :
    Nat → PTree V → Nat → Bool × PTree V
  | 0, t, _ => (false, t)
  | fuel + 1, .node d l r pre len, idx =>
      let sliceLen := min len (keyLen - idx)
      let maskedPrefix := maskU pre sliceLen
      let keySlice := bitSliceU key idx (idx + sliceLen)
      if maskedPrefix ≠ keySlice then
        -- Prefixes do not match: split key
        let diff := trailingZerosU (xorU maskedPrefix keySlice)
        let insChild : PTree V :=
          .node none none none (bitSliceU key (idx + diff + 1) keyLen)
            ((keyLen - idx - diff - 1) % 256)
        let neighbor : PTree V :=
          .node d l r (shrU pre (diff + 1)) ((len - diff - 1) % 256)
        let res := insertGo value key keyLen fuel insChild (idx + 1 + diff)
        if bitValueU keySlice diff then
          (res.1, .node none (some neighbor) (some res.2) (maskU pre diff) (diff % 256))
        else
          (res.1, .node none (some res.2) (some neighbor) (maskU pre diff) (diff % 256))
      else
        let sliceLen2 := keyLen - idx
        if len > sliceLen2 then
          -- Search key shorter than prefix: truncate, attach old data below
          let newChild : PTree V :=
            .node d l r (shrU pre (sliceLen2 + 1)) ((len - sliceLen2 - 1) % 256)
          if bitValueU pre sliceLen2 then
            (true, .node (some value) none (some newChild) keySlice (sliceLen2 % 256))
          else
            (true, .node (some value) (some newChild) none keySlice (sliceLen2 % 256))
        else if len = sliceLen2 then
          -- Exact match
          match d with
          | none => (true, .node (some value) l r pre len)
          | some _ => (false, .node d l r pre len)
        else
          -- Search key longer: recurse, creating the subtree if needed
          let idx' := idx + len + 1
          let fresh : PTree V :=
            .node none none none (bitSliceU key idx' keyLen)
              ((keyLen % 256 + 256 - idx' % 256) % 256)
          if bitValueU key (idx' - 1) then
            match r with
            | some t =>
                let res := insertGo value key keyLen fuel t idx'
                (res.1, .node d l (some res.2) pre len)
            | none =>
                let res := insertGo value key keyLen fuel fresh idx'
                (res.1, .node d l (some res.2) pre len)
          else
            match l with
            | some t =>
                let res := insertGo value key keyLen fuel t idx'
                (res.1, .node d (some res.2) r pre len)
            | none =>
                let res := insertGo value key keyLen fuel fresh idx'
                (res.1, .node d (some res.2) r pre len)

/-- `PatriciaTree::insert`. -/
def insert (t : PTree V) (key keyLen : Nat) (value : V) : Bool × PTree V :=
  insertGo value key keyLen (keyLen + 1) t 0

/-- The consolidation step shared by both delete paths: absorb the single
child `c` into the node.  `bit` records whether that child was the right
one.  The new prefix is assembled with wrapping `Uint256` adds and shifts;
the new `skip_len` is a wrapping `u8` addition — the source of the data
loss exhibited for claim C8. -/
def consolidate (c : PTree V) (pre len : Nat) (bit : Bool) :
    PTree V :=
  let newBit := if bit then shlU 1 len else 0
  .node c.data c.childL c.childR
    (addU (addU pre newBit) (shlU c.skipPrefix (1 + len)))
    ((len + 1 + c.skipLen) % 256)

/-- The recursive worker of `PatriciaTree::delete`.  Returns
`(deletable, taken value, rebuilt node)`; a `deletable` child is removed
by its parent. -/
def deleteGo : PTree V → Nat → Nat → Bool × Option V × PTree V
  | .node d l r pre len, key, keyLen =>
      if keyLen < len then (false, none, .node d l r pre len)
      else if pre ≠ maskU key len then (false, none, .node d l r pre len)
      else if len = keyLen then
        -- Exact match: take the value, then try to consolidate
        let bit := r.isSome
        match l, r with
        | some cl, some cr => (false, d, .node none (some cl) (some cr) pre len)
        | some c, none => (false, d, consolidate c pre len bit)
        | none, some c => (false, d, consolidate c pre len bit)
        | none, none => (true, d, .node none none none pre len)
      else
        let nextBit := bitValueU key len
        let target := if nextBit then r else l
        match target with
        | none => (false, none, .node d l r pre len)
        | some sub =>
            let (delChild, ret, sub') :=
              if nextBit then
                match r with
                | some t => deleteGo t (shrU key (len + 1)) (keyLen - len - 1)
                | none => (false, none, sub)
              else
                match l with
                | some t => deleteGo t (shrU key (len + 1)) (keyLen - len - 1)
                | none => (false, none, sub)
            let l' := if nextBit then l else if delChild then none else some sub'
            let r' := if nextBit then (if delChild then none else some sub') else r
            if d.isSome then (false, ret, .node d l' r' pre len)
            else
              let bit := r'.isSome
              match l', r' with
              | some cl, some cr => (false, ret, .node none (some cl) (some cr) pre len)
              | some c, none => (false, ret, consolidate c pre len bit)
              | none, some c => (false, ret, consolidate c pre len bit)
              | none, none => (true, ret, .node none none none pre len)

/-- `PatriciaTree::delete`: run the worker at the root, return the value
(the root itself is never removed). -/
def delete (t : PTree V) (key keyLen : Nat) : Option V × PTree V :=
  let (_, ret, t') := deleteGo t key keyLen
  (ret, t')

end PTree

/-! ## Blocks and headers (src/bitcoin/blockdata/block.rs)

The 32-byte hashes inside a header are carried as the little-endian `Nat`
value of their bytes (exactly the reading of `Sha256dHash::as_uint256`);
byte-wise equality of two hashes is equality of these values. -/

/-- A block header. -/
structure BlockHeader where
  version : Nat
  prevBlockhash : Nat
  merkleRoot : Nat
  time : Nat
  bits : Nat
  nonce : Nat
deriving Repr, DecidableEq

/-- `BlockHeader::serialize`: the fixed 80-byte wire form. -/
def encHeader (h : BlockHeader) : List Nat :=
  encU32 h.version ++ leBytes 32 h.prevBlockhash ++ leBytes 32 h.merkleRoot ++
    encU32 h.time ++ encU32 h.bits ++ encU32 h.nonce

/-- Modelled from the spec: `BlockHeader::hash` — the header's "identity is
double-SHA-256 of that form" (spec §3), read here as a little-endian 256-bit
value. -/
def headerHash (h : BlockHeader) : Nat := leVal (sha256d (encHeader h))

/-- A block: header plus optional transaction payload. -/
structure Block where
  header : BlockHeader
  txdata : List Transaction
deriving Repr, DecidableEq

/-- Modelled from the spec: `BlockHeader::spv_validate(required)` (absent
from this snapshot's block.rs) — "Verify the header's declared bits equal
`required_bits`, and that double-SHA-256 of the header, interpreted as a
little-endian U, is ≤ the target encoded by `required_bits`" (spec §4.3
step 3).  `required` is the stored `required_difficulty`, already a target. -/
def spvValidate (h : BlockHeader) (required : Nat) : Bool :=
  targetOf h.bits = required && headerHash h ≤ required

/-! ## The UTXO set (src/bitcoin/blockdata/utxoset.rs)

A `UtxoNode` (`ThinVec<Option<Box<TxOut>>>`) is modelled as a list of
optional outputs; `ThinVec` itself is repository code not in this snapshot,
modelled from the spec: "for a given transaction id, a dense vector of
`Option<TxOut>`" (spec §3), with `reserve`+`get_mut` writes growing the
vector to cover every written slot.  The tree key is the low 128 bits of
the txid (`KEY_LEN = 128`). -/

/-- `UtxoNode`. -/
abbrev UtxoNode := List (Option TxOut)

/-- `KEY_LEN`. -/
def KEY_LEN : Nat := 128

/-- The UTXO set. -/
structure UtxoSet where
  tree : PTree UtxoNode
  lastHash : Nat
  nUtxos : Nat
deriving Repr

/-- `UtxoSet::new`: empty tree, `last_hash` = the genesis header's hash,
zero counter (the genesis output is deliberately not added). -/
def UtxoSet.new (genesis : Block) : UtxoSet :=
  { tree := PTree.new, lastHash := headerHash genesis.header, nUtxos := 0 }

/-- `UtxoSet::add_utxos`.  If the node is already present the outputs are
written over its first slots without touching `n_utxos`; otherwise a fresh
node holding exactly the outputs is inserted and `n_utxos` grows by the
output count (a wrapping `u64` addition). -/
def UtxoSet.addUtxos (s : UtxoSet) (tx : Transaction) : Bool × UtxoSet :=
  let key := hashLow128 (txidNat tx)
  match s.tree.lookup key KEY_LEN with
  | some _ =>
      let f : UtxoNode → UtxoNode :=
        fun node => tx.output.map some ++ node.drop tx.output.length
      (true, { s with tree := s.tree.update key KEY_LEN f })
  | none =>
      let newNode : UtxoNode := tx.output.map some
      (true, { s with
        tree := (s.tree.insert key KEY_LEN newNode).2,
        nUtxos := (s.nUtxos + tx.output.length) % 2^64 })

/-- `UtxoSet::take_utxo`. -/
def UtxoSet.takeUtxo (s : UtxoSet) (txid : Nat) (vout : Nat) :
    Option TxOut × UtxoSet :=
  let key := hashLow128 txid
  match s.tree.lookup key KEY_LEN with
  | none => (none, s)
  | some node =>
      if node.length ≤ vout then (none, s)
      else
        let ret := node.getD vout none
        let node' := node.set vout none
        let tree' := s.tree.update key KEY_LEN (fun _ => node')
        let shouldDelete := node'.all (fun slot => slot.isNone)
        let tree'' := if shouldDelete then (tree'.delete key KEY_LEN).2 else tree'
        let n' := if ret.isSome then (s.nUtxos + 2^64 - 1) % 2^64 else s.nUtxos
        (ret, { s with tree := tree'', nUtxos := n' })

/-- `UtxoSet::get_utxo` (read-only lookup). -/
def UtxoSet.getUtxo (s : UtxoSet) (txid : Nat) (vout : Nat) : Option TxOut :=
  match s.tree.lookup (hashLow128 txid) KEY_LEN with
  | none => none
  | some node => if node.length ≤ vout then none else node.getD vout none

/-- The `unwind` helper inside `UtxoSet::update`: take back every output of
the first `n_txes` transactions of the block. -/
def UtxoSet.unwind (s : UtxoSet) (block : Block) (nTxes : Nat) : UtxoSet :=
  (block.txdata.take nTxes).foldl
    (fun s tx =>
      let txHash := txidNat tx
      (List.range tx.output.length).foldl
        (fun s n => (s.takeUtxo txHash n).2) s)
    s

/-- The input check of `UtxoSet::update` for one transaction: every input
must refer to an existing unspent output. -/
def UtxoSet.checkInputs (s : UtxoSet) (tx : Transaction) : Bool :=
  tx.input.all (fun i => (s.getUtxo i.prevHash i.prevIndex).isSome)

/-- Phase one of `UtxoSet::update`: walk the transactions in order; for a
transaction of index above zero first check all inputs against the current
state (rewinding and failing when one is missing), then add its outputs. -/
def UtxoSet.updatePhase1 (block : Block) :
    UtxoSet → Nat → List Transaction → Bool × UtxoSet
  | s, _, [] => (true, s)
  | s, nTx, tx :: rest =>
      if 0 < nTx ∧ ¬s.checkInputs tx then (false, s.unwind block nTx)
      else UtxoSet.updatePhase1 block (s.addUtxos tx).2 (nTx + 1) rest

/-- Phase two of `UtxoSet::update`: actually remove the inputs of every
non-coinbase transaction. -/
def UtxoSet.removeInputs (s : UtxoSet) (block : Block) : UtxoSet :=
  (block.txdata.drop 1).foldl
    (fun s tx => tx.input.foldl
      (fun s i => (s.takeUtxo i.prevHash i.prevIndex).2) s)
    s

/-- `UtxoSet::update`. -/
def UtxoSet.update (s : UtxoSet) (block : Block) : Bool × UtxoSet :=
  match UtxoSet.updatePhase1 block s 0 block.txdata with
  | (false, s') => (false, s')
  | (true, s') =>
      (true, { s'.removeInputs block with lastHash := headerHash block.header })

/-! ## The header chain (src/bitcoin/blockdata/blockchain.rs)

A `BlockchainNode` owns a block plus its consensus bookkeeping; the `prev`
field is a pure cache of the tree lookup of `prev_blockhash` (we look up
each time), and the mutable `next` pointers that thread the best chain
through the shared `Rc` nodes are modelled as a map from a node's header
hash to the header hash of the node its `next` cell points at.  The tree is
the Patricia tree keyed by the 256-bit header hash (`hash.as_bitv()`). -/

/-- A chain node (without the two pointer cells). -/
structure ChainNode where
  block : Block
  totalWork : Nat
  requiredDifficulty : Nat
  height : Nat
  hasTxdata : Bool
deriving Repr, DecidableEq

/-- Set/overwrite an association (models writing a `next` cell). -/
def setAssoc (m : List (Nat × Nat)) (k v : Nat) : List (Nat × Nat) :=
  match m with
  | [] => [(k, v)]
  | (k', v') :: rest =>
      if k' = k then (k, v) :: rest else (k', v') :: setAssoc rest k v

/-- Read an association (models reading a `next` cell; `none` = empty). -/
def getAssoc (m : List (Nat × Nat)) (k : Nat) : Option Nat :=
  match m with
  | [] => none
  | (k', v') :: rest => if k' = k then some v' else getAssoc rest k

/-- The blockchain. -/
structure Blockchain where
  tree : PTree ChainNode
  next : List (Nat × Nat)
  bestTip : ChainNode
  bestHash : Nat
  genesisHash : Nat

/-- `BlockchainNode::prev`: the tree lookup of the parent. -/
def Blockchain.nodePrev (c : Blockchain) (n : ChainNode) : Option ChainNode :=
  c.tree.lookup n.block.header.prevBlockhash 256

/-- `Blockchain::new`. -/
def Blockchain.new (genesis : Block) : Blockchain :=
  let gh := headerHash genesis.header
  let node : ChainNode :=
    { block := genesis, totalWork := 0,
      requiredDifficulty := targetOf genesis.header.bits,
      height := 0, hasTxdata := true }
  { tree := (PTree.new.insert gh 256 node).2, next := [],
    bestTip := node, bestHash := gh, genesisHash := gh }

/-- The `scan` loop of `real_add_block`: follow `prev` pointers `k` times;
`none` models the `unwrap` panic on a missing ancestor. -/
def Blockchain.scanBack (c : Blockchain) : ChainNode → Nat → Option ChainNode
  | n, 0 => some n
  | n, k + 1 =>
      match c.nodePrev n with
      | some p => Blockchain.scanBack c p k
      | none => none

/-- The `difficulty` computation of `real_add_block` (lines 353–379): at a
retarget height scan back `DIFFCHANGE_INTERVAL - 1` parents and apply the
clamped-timespan retarget; otherwise inherit the parent's
`required_difficulty`. -/
def Blockchain.computeDifficulty (c : Blockchain) (prev : ChainNode) :
    Option Nat :=
  if (prev.height + 1) % 2^32 % DIFFCHANGE_INTERVAL = 0 then
    (c.scanBack prev (DIFFCHANGE_INTERVAL - 1)).map fun scan =>
      retargetRequired prev.block.header.bits
        (retargetTimespan prev.block.header.time scan.block.header.time)
  else some prev.requiredDifficulty

/-- The backward walk of `set_best_tip` (lines 420–441); only the `next`
cells are written.  The walk is fuelled by the new tip's height, which
bounds it on every chain the program builds (each step moves to a parent
of smaller height); the fields the claims speak about (tree, best tip,
best hash) are set before the walk and do not depend on it. -/
def Blockchain.fixNextLinks (tree : PTree ChainNode) (oldBest : ChainNode) :
    Nat → List (Nat × Nat) → ChainNode → Option ChainNode → List (Nat × Nat)
  | 0, next, _, _ => next
  | fuel + 1, next, scan, prev =>
      if scan.block.header = oldBest.block.header then next
      else
        match prev with
        | none => next
        | some p =>
            let pHash := headerHash p.block.header
            let sHash := headerHash scan.block.header
            let next' :=
              match getAssoc next pHash with
              | none => setAssoc next pHash sHash
              | some nh => if nh ≠ sHash then setAssoc next pHash sHash else next
            Blockchain.fixNextLinks tree oldBest fuel next' p
              (PTree.lookup tree p.block.header.prevBlockhash 256)

/-- `Blockchain::set_best_tip`. -/
def Blockchain.setBestTip (c : Blockchain) (tip : ChainNode) : Blockchain :=
  let oldBest := c.bestTip
  let newNext :=
    Blockchain.fixNextLinks c.tree oldBest (tip.height + 1) c.next tip
      (c.nodePrev tip)
  { c with bestHash := headerHash tip.block.header, bestTip := tip,
           next := newNext }

/-- `Blockchain::real_add_block`.  `none` models the panic of the retarget
scan's `unwrap` on a missing ancestor; otherwise the boolean is the Rust
return value.  Note the order of effects: the parent's `next` cell is set
**before** `spv_validate` runs, so a rejected header leaves that cell
pointing at the rejected node. -/
def Blockchain.realAddBlock (c : Blockchain) (block : Block)
    (hasTxdata : Bool) : Option (Bool × Blockchain) :=
  let prevOpt :=
    if block.header.prevBlockhash = c.bestHash then some c.bestTip
    else c.tree.lookup block.header.prevBlockhash 256
  match prevOpt with
  | none => some (false, c)
  | some prev =>
      match c.computeDifficulty prev with
      | none => none
      | some difficulty =>
          let node : ChainNode :=
            { block := block,
              totalWork := addU (workOf block.header.bits) prev.totalWork,
              requiredDifficulty := difficulty,
              height := (prev.height + 1) % 2^32,
              hasTxdata := hasTxdata }
          let next₁ :=
            setAssoc c.next (headerHash prev.block.header)
              (headerHash block.header)
          let c₁ := { c with next := next₁ }
          if ¬spvValidate block.header node.requiredDifficulty then
            some (false, c₁)
          else
            let tree₂ := (c₁.tree.insert (headerHash block.header) 256 node).2
            let c₂ := { c₁ with tree := tree₂ }
            if node.totalWork > c₂.bestTip.totalWork then
              some (true, c₂.setBestTip node)
            else some (true, c₂)

/-- `Blockchain::add_header`. -/
def Blockchain.addHeader (c : Blockchain) (h : BlockHeader) :
    Option (Bool × Blockchain) :=
  c.realAddBlock { header := h, txdata := [] } false

/-! ### The locator iterator (src/bitcoin/blockdata/blockchain.rs lines
192–225 and `locator_hashes`) -/

/-- The inner `for _ in range(0, skip)` stepping loop: follow `prev`
pointers, stopping early (`break`) when one is missing. -/
def Blockchain.stepMany (c : Blockchain) : Nat → Option ChainNode → Option ChainNode
  | 0, i => i
  | k + 1, i =>
      match i with
      | none => none
      | some n => Blockchain.stepMany c k (c.nodePrev n)

/-- `LocatorHashIter::next`, iterated and collected.  Each call emits the
current node's hash, steps back `skip` parents, bumps `count`, and doubles
`skip` once `count` exceeds ten.  Collection stops at the first `None`.
The recursion is fuelled; `locatorHashes` supplies fuel that covers every
chain the program builds (the walk moves to smaller heights). -/
def Blockchain.locGo (c : Blockchain) :
    Nat → Option ChainNode → Nat → Nat → List Nat
  | 0, _, _, _ => []
  | _ + 1, none, _, _ => []
  | fuel + 1, some n, count, skip =>
      let idx' := Blockchain.stepMany c skip (some n)
      let count' := count + 1
      let skip' := if count' > 10 then skip * 2 else skip
      headerHash n.block.header :: Blockchain.locGo c fuel idx' count' skip'

/-- `Blockchain::locator_hashes`. -/
def Blockchain.locatorHashes (c : Blockchain) : List Nat :=
  Blockchain.locGo c (c.bestTip.height + 2) (some c.bestTip) 0 1

/-! ## Observation functions used by the claim statements -/

namespace PTree

variable {V : Type}

/-- All values stored in a Patricia tree ("the entries of the index"),
collected in pre-order. -/
def values : PTree V → List V
  | .node d l r _ _ =>
      (match d with | some v => [v] | none => []) ++
      (match l with | some t => values t | none => []) ++
      (match r with | some t => values t | none => [])

/-- Structural well-formedness used by the insert/lookup lemmas: every
node's `skip_prefix` fits in its `skip_len` bits.  (Every tree the
repository builds satisfies this; it is checkable by evaluation.) -/
def wfB : PTree V → Bool
  | .node _ l r pre len =>
      decide (pre < 2^len) &&
      (match l with | some t => wfB t | none => true) &&
      (match r with | some t => wfB t | none => true)

end PTree

/-- The number of `Some` slots across all entries of a UTXO set's radix
index (the quantity claim C5 says `n_utxos` tracks). -/
def UtxoSet.someSlotCount (s : UtxoSet) : Nat :=
  (s.tree.values.map (fun node => (node.filter (fun o => o.isSome)).length)).sum

/-- The UTXO-set state after adding the outputs of the first `j`
transactions of a block (the state against which transaction `j`'s inputs
are checked, per claim C10). -/
def UtxoSet.afterOutputs (s : UtxoSet) (block : Block) (j : Nat) : UtxoSet :=
  ((block.txdata.take j).foldl (fun s tx => (s.addUtxos tx).2) s)

/-- The depth sequence the locator iterator of the code walks on a chain
of `n` best-chain ancestors (tip at depth 0): from the current depth emit,
then advance by `skip`; `count` bumps each call and `skip` doubles once
`count` exceeds ten.  The walk dies when the step would pass depth
`n - 1`. -/
def codeDepthsGo (n : Nat) : Nat → Option Nat → Nat → Nat → List Nat
  | 0, _, _, _ => []
  | _ + 1, none, _, _ => []
  | fuel + 1, some d, count, skip =>
      let idx' := if d + skip < n then some (d + skip) else none
      let count' := count + 1
      let skip' := if count' > 10 then skip * 2 else skip
      d :: codeDepthsGo n fuel idx' count' skip'

/-- The locator depth sequence of the code, with canonical fuel. -/
def codeDepths (n : Nat) : List Nat := codeDepthsGo n (n + 1) (some 0) 0 1

/-- The locator depth sequence the claim describes: the first ten
positions step by 1 and the step doubles for each position thereafter,
stopping at the genesis (depth `n - 1`) or when the walk runs off the
chain. -/
def claimDepthsGo (n : Nat) : Nat → Nat → Nat → Nat → List Nat
  | 0, _, _, _ => []
  | fuel + 1, d, pos, step =>
      if d < n then
        let pos' := pos + 1
        let step' := if pos' ≥ 10 then step * 2 else step
        d :: claimDepthsGo n fuel (d + step) pos' step'
      else []

/-- The claim's depth sequence (positions 1–10 step by 1; position 11
steps by 2, position 12 by 4, and so on). -/
def claimDepths (n : Nat) : List Nat := claimDepthsGo n (n + 1) 0 0 1

/-! ## Concrete scenarios used by counterexamples and witnesses -/

/-- A coinbase-style transaction with one output. -/
def cbTx : Transaction :=
  { version := 1, lockTime := 0,
    input := [{ prevHash := 0, prevIndex := 0xFFFFFFFF, scriptSig := [],
                sequence := 0xFFFFFFFF }],
    output := [{ value := 5000000000, scriptPubkey := [81] }] }

/-- A transaction whose single input refers to an output that is in no
UTXO set of the scenarios (txid 42). -/
def badTx : Transaction :=
  { version := 1, lockTime := 0,
    input := [{ prevHash := 42, prevIndex := 0, scriptSig := [],
                sequence := 0xFFFFFFFF }],
    output := [{ value := 1, scriptPubkey := [82] }] }

/-- A transaction with two outputs. -/
def twoOutTx : Transaction :=
  { version := 1, lockTime := 0,
    input := [{ prevHash := 7, prevIndex := 0, scriptSig := [],
                sequence := 0xFFFFFFFF }],
    output := [{ value := 10, scriptPubkey := [83] },
               { value := 20, scriptPubkey := [84] }] }

/-- A transaction spending output 0 of `cbTx` (an intra-block spend when
both appear in one block). -/
def spendTx : Transaction :=
  { version := 1, lockTime := 0,
    input := [{ prevHash := txidNat cbTx, prevIndex := 0, scriptSig := [],
                sequence := 0xFFFFFFFF }],
    output := [{ value := 5000000000, scriptPubkey := [85] }] }

/-- A scenario genesis header with a very easy target (bits `0x20FFFFFF`,
target `0xFFFFFF·2^232`), so that unmined headers pass the proof-of-work
check. -/
def gHeader : BlockHeader :=
  { version := 1, prevBlockhash := 0, merkleRoot := 0, time := 0,
    bits := 0x20FFFFFF, nonce := 0 }

/-- The scenario genesis block. -/
def gBlock : Block := { header := gHeader, txdata := [cbTx] }

/-- The header hashes of the scenario chain (`scenHashes.getD k 0` is the
hash of the height-`k` scenario header), written out as literals to keep
kernel evaluation shallow; `addHeader` recomputes every hash when the
headers are fed to it, so a wrong literal here would only make the
scenario adds fail. -/
def scenHashes : List Nat :=
  [35759716189416936664965299515305647351856127103245059082444385178945523628705,
   66628178622395217039187351503261851356840586023154278315572994830583842936702,
   16476153187341447894853848160660753453795966915040470247596125562441280359711,
   113864084064889362648705553613959199799232308382360837545969454760897404891837,
   78380603216777893706417895341478514151474315759518126831383812085495022644245,
   58071014752210243160851338770762826814714819944811999877398096708029589166575,
   98407846446577678903299651447895318631066894135941231336546013980924223252018,
   97804123247709317836037697409610029946676766463192777018828319248610698811371,
   38435689377989664920414831867599578514352755648734745614676725320405599893609,
   32065808174992811438328393473735791357998217984611802137588523707320760166290,
   54889298784387047508224122251248679204918614601804177842381443855280605050484,
   90844073853015187493908807377082065193321242306125801220745965161456700877401,
   28967596896608232824133389703305217503491560482776573064144023378097345215826]

/-- Scenario headers: `scenHeader k` is the height-`k` header of a straight
chain above `gHeader`, every one carrying the inherited easy bits. -/
def scenHeader : Nat → BlockHeader
  | 0 => gHeader
  | k + 1 =>
      { version := 1, prevBlockhash := scenHashes.getD k 0,
        merkleRoot := 0, time := k + 1, bits := 0x20FFFFFF, nonce := 0 }

/-- The chain node `add_header` builds for the height-`k` scenario header:
the easy target gives every header `work = 1`, so `total_work = k`; every
height below 2016 inherits the genesis `required_difficulty`. -/
def scenNode (k : Nat) : ChainNode :=
  { block := { header := scenHeader k,
               txdata := if k = 0 then [cbTx] else [] },
    totalWork := k, requiredDifficulty := targetOf 0x20FFFFFF,
    height := k, hasTxdata := decide (k = 0) }

/-- The chain `Blockchain::new(gBlock)` followed by `add_header` of the
scenario headers of heights 1..12 produces: thirteen nodes keyed by their
header hashes, `next` links threading the single chain, and the height-12
node as best tip.  (Spelled out with the literal hashes so that the kernel
can evaluate locator walks on it cheaply.) -/
def scenChain13 : Blockchain :=
  { tree := (List.range 13).foldl
      (fun t k => (t.insert (scenHashes.getD k 0) 256 (scenNode k)).2)
      PTree.new,
    next := (List.range 12).map
      (fun k => (scenHashes.getD k 0, scenHashes.getD (k + 1) 0)),
    bestTip := scenNode 12,
    bestHash := scenHashes.getD 12 0,
    genesisHash := scenHashes.getD 0 0 }

/-- The best-chain ancestor list of `scenChain13`, tip first. -/
def scenAncestors : List ChainNode :=
  (List.range 13).map (fun i => scenNode (12 - i))

/-- A block at height 1 carrying only the coinbase. -/
def blkA : Block := { header := scenHeader 1, txdata := [cbTx] }

/-- The UTXO set after applying `blkA` to a fresh set: it holds exactly
the coinbase output. -/
def c2PreSet : UtxoSet := ((UtxoSet.new gBlock).update blkA).2

/-- A block at height 2 whose coinbase **repeats the transaction of
`blkA`** (duplicate txid, as the pre-BIP30 Bitcoin chain really produced)
and whose second transaction spends a non-existent output, forcing
`update` to fail and unwind. -/
def blkB : Block := { header := scenHeader 2, txdata := [cbTx, badTx] }

/-- A block whose second transaction spends the first transaction's output
(an intra-block spend). -/
def blkS : Block := { header := scenHeader 1, txdata := [cbTx, spendTx] }

/-- Flip (complement) the byte at position `i` of a byte string. -/
def flipByteAt (i : Nat) (bs : List Nat) : List Nat :=
  bs.set i (255 - bs.getD i 0)

/-- The scenario chain for claims C3/C4: just the scenario genesis. -/
def chain0 : Blockchain := Blockchain.new gBlock

/-- A header above the scenario genesis whose declared bits (mainnet
difficulty-1) disagree with the required bits inherited from the genesis,
so `spv_validate` rejects it. -/
def badHeader : BlockHeader :=
  { version := 1, prevBlockhash := headerHash gHeader, merkleRoot := 0,
    time := 1, bits := 0x1D00FFFF, nonce := 0 }

/-- The chain after a successful `add_header` of the height-1 scenario
header on `chain0`. -/
def chain1 : Blockchain :=
  ((chain0.addHeader (scenHeader 1)).getD (false, chain0)).2

/-! ## Support: the repository's own hash test vectors hold in this model -/

set_option maxRecDepth 1000000

/-- `Sha256dHash::from_data(&[])` equals the vector in hash.rs's
`test_sha256d`. -/
theorem sha256d_vector_empty :
    sha256d [] =
      [0x5d, 0xf6, 0xe0, 0xe2, 0x76, 0x13, 0x59, 0xd3, 0x0a, 0x82, 0x75,
       0x05, 0x8e, 0x29, 0x9f, 0xcc, 0x03, 0x81, 0x53, 0x45, 0x45, 0xf5,
       0x5c, 0xf4, 0x3e, 0x41, 0x98, 0x3f, 0x5d, 0x4c, 0x94, 0x56] := by
  decide!

/-- `Sha256dHash::from_data(b"TEST")` equals the vector in hash.rs's
`test_sha256d`. -/
theorem sha256d_vector_TEST :
    sha256d [84, 69, 83, 84] =
      [0xd7, 0xbd, 0x34, 0xbf, 0xe4, 0x4a, 0x18, 0xd2, 0xaa, 0x75, 0x5a,
       0x34, 0x4f, 0xe3, 0xe6, 0xb0, 0x6e, 0xd0, 0x47, 0x37, 0x72, 0xe6,
       0xdf, 0xce, 0x16, 0xac, 0x71, 0xba, 0x0b, 0x0a, 0x24, 0x1c] := by
  decide!

/-- The mainnet genesis header hashes to the expected value (constants.rs
`genesis_full_block` test), confirming the 80-byte header serialization
and the little-endian hash reading. -/
theorem genesis_header_hash_vector :
    headerHash
      { version := 1, prevBlockhash := 0,
        merkleRoot :=
          0x4a5e1e4baab89f3a32518a88c31bc87f618f76673e2cc77ab2127b7afdeda33b,
        time := 1231006505, bits := 0x1d00ffff, nonce := 2083236893 } =
      0x000000000019d6689c085ae165831e934ff763ae46a2a6c172b3f1b60a8ce26f := by
  decide!

/-- `CheckedData::serialize` of `[1,2,3,4,5]` equals the vector in
serialize.rs's `serialize_checkeddata_test`. -/
theorem checkeddata_vector :
    encCheckedData [1, 2, 3, 4, 5] =
      [5, 0, 0, 0, 162, 107, 175, 90, 1, 2, 3, 4, 5] := by decide!

/-! ## Claim C1 -/

/-- **C1.**  The claim states that at a retarget block `add_header`
computes the new target as `min(MAX_TARGET, parent.target · timespan /
TARGET_TIMESPAN)` followed by the compact truncation.  The code instead
multiplies with `Uint256::mul_u32`, which loses a carry of the per-word
computation `lower + (upper << 32)` for some operands.  At parent bits
`0x0E573B97` (target `0x573B97·2^88`, compact-representable and below
`MAX_TARGET`) and clamped timespan `4808223` (inside the clamp window, so
reachable as a time difference), the retarget expression of
`real_add_block` — `satoshi_the_precision(min(max_target, (target
mul_u32 timespan) / TIMESPAN))`, embedded as `retargetRequired` — yields
`0x14CE2·2^96`, while the claim's exact-arithmetic formula
(`claimRequiredBits`) yields `0x15AC1·2^96`. -/
theorem c1_retarget_mul_carry_bug :
    retargetTimespan 4808223 0 = 4808223 ∧
    retargetRequired 0x0E573B97 4808223 = 0x14CE2 * 2^96 ∧
    claimRequiredBits 0x0E573B97 4808223 = 0x15AC1 * 2^96 ∧
    retargetRequired 0x0E573B97 4808223 ≠
      claimRequiredBits 0x0E573B97 4808223 := by decide!

/-! ## Claim C2 -/

/-- **C2.**  The claim states that a failing `update` leaves the UTXO set
identical to its pre-call state.  Counter-evaluation: starting from the
set holding only the coinbase output of `blkA`, applying `blkB` — whose
coinbase repeats `blkA`'s transaction and whose second transaction spends
a missing output — fails, but the unwind destroys the pre-existing
entry: `n_utxos` drops from 1 to 0 and the coinbase output disappears
from the index (the duplicate-txid `add_utxos` path had overwritten the
existing node without touching `n_utxos`, and `take_utxo` then removed
it). -/
theorem c2_update_failure_not_rolled_back :
    ((UtxoSet.new gBlock).update blkA).1 = true ∧
    c2PreSet.nUtxos = 1 ∧
    (c2PreSet.getUtxo (txidNat cbTx) 0).isSome = true ∧
    (c2PreSet.update blkB).1 = false ∧
    (c2PreSet.update blkB).2.nUtxos = 0 ∧
    (c2PreSet.update blkB).2.getUtxo (txidNat cbTx) 0 = none := by decide!

/-! ## Claim C5 -/

/-- **C5.**  The claim states that after any sequence of UTXO-set
operations `n_utxos` equals the number of `Some` slots in the index.
Counter-evaluation: add a two-output transaction, take one output, then
add the same transaction again.  The second `add_utxos` finds the node
already present and rewrites its slots to `Some` without touching
`n_utxos`, leaving `n_utxos = 1` against two `Some` slots. -/
theorem c5_nutxos_overwrite_bug :
    (((UtxoSet.new gBlock).addUtxos twoOutTx).2.nUtxos = 2 ∧
     ((UtxoSet.new gBlock).addUtxos twoOutTx).2.someSlotCount = 2) ∧
    ((((UtxoSet.new gBlock).addUtxos twoOutTx).2.takeUtxo
        (txidNat twoOutTx) 0).2.nUtxos = 1 ∧
     (((UtxoSet.new gBlock).addUtxos twoOutTx).2.takeUtxo
        (txidNat twoOutTx) 0).2.someSlotCount = 1) ∧
    (((((UtxoSet.new gBlock).addUtxos twoOutTx).2.takeUtxo
        (txidNat twoOutTx) 0).2.addUtxos twoOutTx).2.nUtxos = 1 ∧
     ((((UtxoSet.new gBlock).addUtxos twoOutTx).2.takeUtxo
        (txidNat twoOutTx) 0).2.addUtxos twoOutTx).2.someSlotCount = 2) := by
  decide!

/-! ## Claim C8 -/

/-- **C8.**  The claim states that Patricia delete returns the stored
value while every other key's value is preserved through any merge.
Counter-evaluation at two 256-bit keys: after `insert(0, 256)` and
`insert(1, 256)`, deleting key 0 returns its value but the consolidation
step computes the merged `skip_len` as the wrapping `u8` sum
`0 + 1 + 255 = 256 ≡ 0`, corrupting the node: key 1 can no longer be
found.  (The repository's own tests insert at `key_len = 256`, so such
keys are blessed usage; at `key_len = 255` the same sequence behaves
correctly.) -/
theorem c8_delete_skiplen_overflow :
    ((PTree.new.insert (V := Nat) 0 256 11).2.insert 1 256 22).2.lookup 0 256
        = some 11 ∧
    ((PTree.new.insert (V := Nat) 0 256 11).2.insert 1 256 22).2.lookup 1 256
        = some 22 ∧
    (((PTree.new.insert (V := Nat) 0 256 11).2.insert 1 256 22).2.delete
        0 256).1 = some 11 ∧
    (((PTree.new.insert (V := Nat) 0 256 11).2.insert 1 256 22).2.delete
        0 256).2.lookup 1 256 = none ∧
    (((PTree.new.insert (V := Nat) 0 255 11).2.insert 1 255 22).2.delete
        0 255).2.lookup 1 255 = some 22 := by decide

/-! ## Codec round-trip support lemmas -/

theorem leBytes_length (n x : Nat) : (leBytes n x).length = n := by
  induction n generalizing x with
  | zero => rfl
  | succ n ih => simp [leBytes, ih]

theorem leVal_leBytes (n x : Nat) : leVal (leBytes n x) = x % 2^(8*n) := by
  induction n generalizing x with
  | zero => simp [leBytes, leVal, Nat.mod_one]
  | succ n ih =>
      have hcons : leVal ((x % 256) :: leBytes n (x / 256)) =
          x % 256 + 256 * leVal (leBytes n (x / 256)) := rfl
      rw [leBytes, hcons, ih, show 8 * (n + 1) = 8 + 8 * n from by ring,
        pow_add, show (2:Nat)^8 = 256 from rfl, Nat.mod_mul]

theorem readN_exact (bs rest : List Nat) :
    readN bs.length (bs ++ rest) = some (bs, rest) := by
  simp [readN, List.take_left, List.drop_left]

theorem readN_exact' (n : Nat) (bs rest : List Nat) (h : bs.length = n) :
    readN n (bs ++ rest) = some (bs, rest) := by
  subst h; exact readN_exact bs rest

theorem decU16_enc (x : Nat) (rest : List Nat) :
    decU16 (encU16 x ++ rest) = some (x % 2^16, rest) := by
  simp [decU16, encU16, readN_exact' 2 _ _ (leBytes_length 2 x), leVal_leBytes]

theorem decU32_enc (x : Nat) (rest : List Nat) :
    decU32 (encU32 x ++ rest) = some (x % 2^32, rest) := by
  simp [decU32, encU32, readN_exact' 4 _ _ (leBytes_length 4 x), leVal_leBytes]

theorem decU64_enc (x : Nat) (rest : List Nat) :
    decU64 (encU64 x ++ rest) = some (x % 2^64, rest) := by
  simp [decU64, encU64, readN_exact' 8 _ _ (leBytes_length 8 x), leVal_leBytes]

/-- The VarInt round trip: the smallest encoding decodes to the value. -/
theorem decVarInt_enc (n : Nat) (rest : List Nat) (h : n < 2^64) :
    decVarInt (encVarInt n ++ rest) = some (n, rest) := by
  unfold encVarInt
  by_cases h1 : n < 0xFD
  · simp [h1, decVarInt]
  · by_cases h2 : n ≤ 0xFFFF
    · have hm : n % 2^16 = n :=
        Nat.mod_eq_of_lt (show n < 2^16 by norm_num at h2 ⊢; omega)
      simp only [h1, if_false, h2, if_true, List.cons_append]
      unfold decVarInt
      simp [decU16_enc, hm]
      all_goals omega
    · by_cases h3 : n ≤ 0xFFFFFFFF
      · have hm : n % 2^32 = n :=
          Nat.mod_eq_of_lt (show n < 2^32 by norm_num at h3 ⊢; omega)
        simp only [h1, if_false, h2, if_false, h3, if_true, List.cons_append]
        unfold decVarInt
        simp [decU32_enc, hm]
        all_goals omega
      · have hm : n % 2^64 = n := Nat.mod_eq_of_lt h
        simp only [h1, if_false, h2, if_false, h3, if_false, List.cons_append]
        unfold decVarInt
        simp [decU64_enc, hm]
        all_goals omega

/-- ASCII characters are their own UTF-8 encoding. -/
theorem strBytes_ascii (s : List Nat) (h : ∀ c ∈ s, c < 128) :
    strBytes s = s := by
  induction s with
  | nil => rfl
  | cons c cs ih =>
      have hc : c < 128 := h c (by simp)
      have henc : utf8EncodeChar c = [c] := by simp [utf8EncodeChar, hc]
      have hcons : strBytes (c :: cs) = utf8EncodeChar c ++ strBytes cs := rfl
      rw [hcons, henc, ih (fun x hx => h x (by simp [hx]))]
      rfl

/-! ## Claim C6 -/

/-- **C6 (counterexample).**  Encoding the one-character string `"é"`
(scalar value 0xE9) emits its UTF-8 bytes `C3 A9`, but the decoder maps
each byte to a character (`|u| u as char`), so the round trip returns the
two-character string `"Ã©"`, not the original. -/
theorem c6_string_utf8_counterexample :
    decString (encString [0xE9]) = some ([0xC3, 0xA9], []) ∧
    ([0xC3, 0xA9] : List Nat) ≠ [0xE9] := by decide

/-- **C6 (amended).**  `decode(encode(x)) = x` holds for `String`s all of
whose characters are ASCII (the decoder reads bytes as characters, which
coincides with UTF-8 exactly there), and for `CommandString`s that are
ASCII, at most 12 characters, and NUL-free; a non-ASCII `String` instead
decodes to the byte-per-character reading of its UTF-8 form. -/
theorem c6_roundtrip_ascii :
    (∀ (s rest : List Nat), s.length < 2^64 → (∀ c ∈ s, c < 128) →
      decString (encString s ++ rest) = some (s, rest)) ∧
    (∀ (s rest : List Nat), s.length ≤ 12 → (∀ c ∈ s, 0 < c ∧ c < 128) →
      decCommandString (encCommandString s ++ rest) = some (s, rest)) := by
  constructor
  · intro s rest hlen hascii
    have hb : strBytes s = s := strBytes_ascii s hascii
    have h1 : encString s ++ rest = encVarInt s.length ++ (s ++ rest) := by
      simp [encString, hb, List.append_assoc]
    rw [h1]
    simp only [decString, Option.bind_eq_bind]
    rw [decVarInt_enc s.length (s ++ rest) hlen]
    simp [readN_exact]
  · intro s rest hlen hvalid
    have hb : strBytes s = s :=
      strBytes_ascii s (fun c hc => (hvalid c hc).2)
    have htake : (strBytes s).take 12 = s := by
      rw [hb]; exact List.take_of_length_le hlen
    have henc : encCommandString s = s ++ List.replicate (12 - s.length) 0 := by
      unfold encCommandString
      rw [htake]
    have hlen12 : (s ++ List.replicate (12 - s.length) 0).length = 12 := by
      simp [List.length_append, List.length_replicate]; omega
    rw [henc]
    simp only [decCommandString, Option.bind_eq_bind]
    rw [readN_exact' 12 _ _ hlen12]
    simp only [Option.some_bind]
    have h1 : (s.filter fun u => decide (0 < u)) = s :=
      List.filter_eq_self.mpr (fun a ha => by
        simpa using (hvalid a ha).1)
    have h2 : ((List.replicate (12 - s.length) 0).filter
        fun u => decide (0 < u)) = [] := by
      simp [List.filter_replicate]
    rw [List.filter_append, h1, h2, List.append_nil]
    rfl

/-- **C6 (witness).**  The round trips at the repository's own test string
`"Andrew"` (as a `String` and as a `CommandString`). -/
theorem c6_roundtrip_ascii_witness :
    decString (encString [65, 110, 100, 114, 101, 119] ++ [7]) =
      some ([65, 110, 100, 114, 101, 119], [7]) ∧
    decCommandString (encCommandString [65, 110, 100, 114, 101, 119] ++ [7]) =
      some ([65, 110, 100, 114, 101, 119], [7]) :=
  ⟨c6_roundtrip_ascii.1 [65, 110, 100, 114, 101, 119] [7] (by decide)
      (by decide),
   c6_roundtrip_ascii.2 [65, 110, 100, 114, 101, 119] [7] (by decide)
      (by decide)⟩

/-! ## Claim C7 -/

theorem wordsToBytes_lt (ws : List Nat) : ∀ b ∈ wordsToBytes ws, b < 256 := by
  induction ws with
  | nil => simp [wordsToBytes]
  | cons w rest ih =>
      simp only [wordsToBytes, List.mem_cons]
      rintro b (rfl | rfl | rfl | rfl | hb)
      · exact Nat.mod_lt _ (by norm_num)
      · exact Nat.mod_lt _ (by norm_num)
      · exact Nat.mod_lt _ (by norm_num)
      · exact Nat.mod_lt _ (by norm_num)
      · exact ih b hb

theorem leVal_lt (bs : List Nat) (h : ∀ b ∈ bs, b < 256) :
    leVal bs < 2^(8 * bs.length) := by
  induction bs with
  | nil => simp [leVal]
  | cons b rest ih =>
      have hb : b < 256 := h b (by simp)
      have hr := ih (fun x hx => h x (by simp [hx]))
      have hcons : leVal (b :: rest) = b + 256 * leVal rest := rfl
      rw [hcons, show 8 * (b :: rest).length = 8 + 8 * rest.length from by
        simp [List.length_cons]; ring, pow_add,
        show (2:Nat)^8 = 256 from rfl]
      nlinarith

/-- The checksum is a 32-bit value. -/
theorem sha2Checksum_lt (data : List Nat) : sha2Checksum data < 2^32 := by
  have hmem : ∀ b ∈ (sha256d data).take 4, b < 256 := fun b hb =>
    wordsToBytes_lt _ b (List.mem_of_mem_take hb)
  have hlen : ((sha256d data).take 4).length ≤ 4 := List.length_take_le _ _
  calc leVal ((sha256d data).take 4)
      < 2^(8 * ((sha256d data).take 4).length) := leVal_lt _ hmem
    _ ≤ 2^32 := Nat.pow_le_pow_right (by norm_num) (by omega)

/-- **C7.**  `CheckedData` encodes as the little-endian u32 length, the
u32 checksum (first four bytes of the double SHA-256 of the payload), and
the payload; decoding recomputes the checksum over the received payload
and succeeds returning the payload exactly when the transmitted checksum
matches, failing otherwise — in particular (third conjunct) every
one-byte flip of the payload of the encoding of `[1,2,3,4,5]` (the spec's
tamper scenario) makes decoding fail. -/
theorem c7_checkeddata_checksum :
    (∀ (data rest : List Nat), data.length < 2^32 →
      decCheckedData (encCheckedData data ++ rest) = some (data, rest)) ∧
    (∀ (data rest : List Nat) (cksum : Nat), data.length < 2^32 →
      cksum < 2^32 →
      decCheckedData (encU32 data.length ++ encU32 cksum ++ (data ++ rest)) =
        if cksum = sha2Checksum data then some (data, rest) else none) ∧
    ((List.range 5).all (fun i =>
      (decCheckedData
        (flipByteAt (8 + i) (encCheckedData [1, 2, 3, 4, 5]))).isNone)
      = true) := by
  have hb : ∀ (data rest : List Nat) (cksum : Nat), data.length < 2^32 →
      cksum < 2^32 →
      decCheckedData (encU32 data.length ++ encU32 cksum ++ (data ++ rest)) =
        if cksum = sha2Checksum data then some (data, rest) else none := by
    intro data rest cksum hlen hck
    unfold decCheckedData
    simp only [Option.bind_eq_bind]
    rw [List.append_assoc, decU32_enc, Nat.mod_eq_of_lt hlen]
    simp only [Option.some_bind]
    rw [decU32_enc, Nat.mod_eq_of_lt hck]
    simp only [Option.some_bind]
    rw [readN_exact]
    simp only [Option.some_bind]
    by_cases hc : cksum = sha2Checksum data <;> simp [hc]
  refine ⟨?_, hb, by decide!⟩
  intro data rest hlen
  have henc : encCheckedData data ++ rest =
      encU32 (data.length % 2^32) ++ encU32 (sha2Checksum data) ++
        (data ++ rest) := by
    simp [encCheckedData, List.append_assoc]
  rw [henc, Nat.mod_eq_of_lt hlen,
    hb data rest (sha2Checksum data) hlen (sha2Checksum_lt data)]
  simp

/-! ## Claim C10 -/

/-- Phase one of `update` succeeds iff every non-coinbase transaction's
inputs all exist in the set as it stands after the outputs of the earlier
transactions have been added. -/
theorem updatePhase1_true_iff (block : Block) :
    ∀ (txs : List Transaction) (s : UtxoSet) (nTx : Nat),
      ((UtxoSet.updatePhase1 block s nTx txs).1 = true ↔
        ∀ j tx, txs.get? j = some tx → 0 < nTx + j →
          ((txs.take j).foldl (fun s tx => (s.addUtxos tx).2) s).checkInputs
            tx = true)
  | [], s, nTx => by simp [UtxoSet.updatePhase1]
  | tx :: rest, s, nTx => by
      unfold UtxoSet.updatePhase1
      by_cases hfail : 0 < nTx ∧ ¬s.checkInputs tx = true
      · rw [if_pos hfail]
        constructor
        · intro h; exact absurd h (by simp)
        · intro h
          have h0 := h 0 tx (by simp) (by omega)
          simp only [List.take_zero, List.foldl_nil] at h0
          exact absurd h0 hfail.2
      · rw [if_neg hfail]
        rw [updatePhase1_true_iff block rest ((s.addUtxos tx).2) (nTx + 1)]
        constructor
        · intro h j tx2 hj hpos
          match j, hj with
          | 0, hj =>
              have htx : tx = tx2 := by simpa using hj
              subst htx
              simp only [List.take_zero, List.foldl_nil]
              rcases Nat.eq_zero_or_pos nTx with h0 | h0
              · omega
              · by_contra hc
                exact hfail ⟨h0, hc⟩
          | j2 + 1, hj =>
              have := h j2 tx2 (by simpa using hj) (by omega)
              simpa using this
        · intro h j tx2 hj hpos
          have := h (j + 1) tx2 (by simpa using hj) (by omega)
          simpa using this

/-- When phase one succeeds, its resulting state is exactly the fold of
`add_utxos` over the whole block (no input has been removed yet). -/
theorem updatePhase1_true_state (block : Block) :
    ∀ (txs : List Transaction) (s : UtxoSet) (nTx : Nat),
      (UtxoSet.updatePhase1 block s nTx txs).1 = true →
      (UtxoSet.updatePhase1 block s nTx txs).2 =
        txs.foldl (fun s tx => (s.addUtxos tx).2) s
  | [], s, nTx => by simp [UtxoSet.updatePhase1]
  | tx :: rest, s, nTx => by
      unfold UtxoSet.updatePhase1
      by_cases hfail : 0 < nTx ∧ ¬s.checkInputs tx = true
      · rw [if_pos hfail]
        intro h; exact absurd h (by simp)
      · rw [if_neg hfail]
        simp only [List.foldl_cons]
        exact updatePhase1_true_state block rest ((s.addUtxos tx).2) (nTx + 1)

/-- **C10.**  `update` checks each non-coinbase transaction's inputs
against the set as it stands after the outputs of all earlier
transactions of the same block were added (first conjunct: acceptance is
equivalent to those checks), and removes inputs only after every
transaction has been processed (second conjunct: on success the final
state is "add all outputs, then remove all non-coinbase inputs, then set
`last_hash`").  Hence a block whose transaction `j` spends an output
created by transaction `i < j` of the same block is accepted — the
witness instantiates this at a concrete intra-block spend. -/
theorem c10_update_two_phase (s : UtxoSet) (block : Block) :
    ((s.update block).1 = true ↔
      (∀ j tx, block.txdata.get? j = some tx → 0 < j →
        (s.afterOutputs block j).checkInputs tx = true)) ∧
    ((s.update block).1 = true →
      (s.update block).2 =
        { (s.afterOutputs block block.txdata.length).removeInputs block with
            lastHash := headerHash block.header }) := by
  have hiff := updatePhase1_true_iff block block.txdata s 0
  have hstate := updatePhase1_true_state block block.txdata s 0
  have hupdate1 : (s.update block).1 =
      (UtxoSet.updatePhase1 block s 0 block.txdata).1 := by
    unfold UtxoSet.update
    rcases UtxoSet.updatePhase1 block s 0 block.txdata with ⟨b, s2⟩
    cases b <;> rfl
  constructor
  · rw [hupdate1, hiff]
    constructor
    · intro h j tx hj hpos
      have := h j tx hj (by omega)
      simpa [UtxoSet.afterOutputs] using this
    · intro h j tx hj hpos
      have := h j tx hj (by omega)
      simpa [UtxoSet.afterOutputs] using this
  · intro h
    rw [hupdate1] at h
    unfold UtxoSet.update
    rcases hp : UtxoSet.updatePhase1 block s 0 block.txdata with ⟨b, s2⟩
    rw [hp] at h
    cases b
    · exact absurd h (by simp)
    · rw [hp] at hstate
      have hs2 : s2 = block.txdata.foldl (fun s tx => (s.addUtxos tx).2) s :=
        hstate rfl
      rw [hs2]
      simp [UtxoSet.afterOutputs, List.take_length]

/-- **C10 (witness).**  A block whose second transaction spends the first
transaction's output is accepted by `update`. -/
theorem c10_update_two_phase_witness :
    ((UtxoSet.new gBlock).update blkS).1 = true := by
  refine (c10_update_two_phase (UtxoSet.new gBlock) blkS).1.mpr ?_
  intro j tx hj hpos
  match j, hpos with
  | 1, _ =>
      have htx : tx = spendTx := by
        have := hj
        simp [blkS] at this
        exact this.symm
      subst htx
      decide!
  | j + 2, _ =>
      exact absurd hj (by simp [blkS])

/-! ## Claim C3 -/

/-- **C3 (counterexample).**  Adding a header whose parent is known but
whose declared bits disagree with the required bits returns `false`, yet
the chain is **not** "exactly as if the header had never been presented":
the parent's forward (`next`) pointer has been set to the rejected node
(the code runs `prev.set_next(ret)` before `spv_validate`).  On the
one-node chain `chain0`, whose `next` map is empty, the failed add leaves
the genesis pointing at the rejected header. -/
theorem c3_next_pointer_counterexample :
    (chain0.addHeader badHeader).map Prod.fst = some false ∧
    (chain0.addHeader badHeader).map (fun p => p.2.next) =
      some [(headerHash gHeader, headerHash badHeader)] ∧
    chain0.next = [] := by decide!

/-- **C3 (amended).**  If the parent is found but `spv_validate` rejects
the header, `real_add_block` returns `false` and the chain is unchanged
— tree, best tip, best hash and genesis hash included — **except** that
the parent's `next` pointer now names the rejected block. -/
theorem c3_reject_only_sets_parent_next (c : Blockchain) (block : Block)
    (ht : Bool) (prev : ChainNode) (d : Nat)
    (hprev : (if block.header.prevBlockhash = c.bestHash then some c.bestTip
              else c.tree.lookup block.header.prevBlockhash 256) = some prev)
    (hdiff : c.computeDifficulty prev = some d)
    (hspv : spvValidate block.header d = false) :
    c.realAddBlock block ht =
      some (false,
        { c with next := (setAssoc c.next (headerHash prev.block.header) (headerHash block.header)) }) := by
  unfold Blockchain.realAddBlock
  rw [hprev]
  simp [hdiff, hspv]

/-- **C3 (witness).**  The amended statement applied to the concrete
rejected header of the counterexample. -/
theorem c3_reject_only_sets_parent_next_witness :
    chain0.realAddBlock { header := badHeader, txdata := [] } false =
      some (false,
        { chain0 with next := (setAssoc chain0.next (headerHash chain0.bestTip.block.header) (headerHash badHeader)) }) :=
  c3_reject_only_sets_parent_next chain0 { header := badHeader, txdata := [] }
    false chain0.bestTip (targetOf 0x20FFFFFF) (by decide!) (by decide!)
    (by decide!)

/-- **C7 (witness).**  The decode of a well-formed encoding at the spec's
own vector `[1,2,3,4,5]`, and the failure at a wrong checksum. -/
theorem c7_checkeddata_checksum_witness :
    decCheckedData (encCheckedData [1, 2, 3, 4, 5] ++ [9]) =
      some ([1, 2, 3, 4, 5], [9]) ∧
    decCheckedData (encU32 5 ++ encU32 0 ++ ([1, 2, 3, 4, 5] ++ [9])) =
      none := by
  constructor
  · exact c7_checkeddata_checksum.1 [1, 2, 3, 4, 5] [9] (by decide)
  · rw [show encU32 5 = encU32 ([1,2,3,4,5] : List Nat).length from rfl,
      c7_checkeddata_checksum.2.1 [1, 2, 3, 4, 5] [9] 0 (by decide)
        (by norm_num)]
    have : (0 : Nat) ≠ sha2Checksum [1, 2, 3, 4, 5] := by decide!
    simp [this]

end WizardsWallet
namespace WizardsWallet
namespace PTree

variable {V : Type}

theorem values_node (d : Option V) (l r : Option (PTree V)) (p n : Nat) :
    (PTree.node d l r p n).values =
      (match d with | some v => [v] | none => []) ++
      (match l with | some t => t.values | none => []) ++
      (match r with | some t => t.values | none => []) := by
  cases d <;> cases l <;> cases r <;> rfl

theorem values_skip (d : Option V) (l r : Option (PTree V))
    (p n q m : Nat) :
    (PTree.node d l r p n).values = (PTree.node d l r q m).values := by
  cases d <;> cases l <;> cases r <;> rfl

theorem perm_last_keep {α : Type} (a b x y : List α) (h : x.Perm y) :
    (a ++ b ++ x).Perm (a ++ b ++ y) :=
  List.Perm.append_left (a ++ b) h

theorem perm_last_cons {α : Type} (a b x y : List α) (vv : α)
    (h : x.Perm (vv :: y)) : (a ++ b ++ x).Perm (vv :: (a ++ b ++ y)) := by
  have h1 : (a ++ b ++ x).Perm (a ++ b ++ (vv :: y)) :=
    List.Perm.append_left _ h
  have h2 : ((a ++ b) ++ vv :: y).Perm (vv :: ((a ++ b) ++ y)) :=
    List.perm_middle
  simp only [List.append_assoc] at h1 h2 ⊢
  exact h1.trans h2

theorem perm_mid_cons {α : Type} (a c x y : List α) (vv : α)
    (h : x.Perm (vv :: y)) : (a ++ x ++ c).Perm (vv :: (a ++ y ++ c)) := by
  have h1 : (a ++ (x ++ c)).Perm (a ++ ((vv :: y) ++ c)) :=
    List.Perm.append_left _ (h.append (List.Perm.refl c))
  have h2 : (a ++ vv :: (y ++ c)).Perm (vv :: (a ++ (y ++ c))) :=
    List.perm_middle
  simp only [List.append_assoc] at h1 h2 ⊢
  exact h1.trans h2

theorem perm_mid_keep {α : Type} (a c x y : List α) (h : x.Perm y) :
    (a ++ x ++ c).Perm (a ++ y ++ c) := by
  have h1 : (a ++ (x ++ c)).Perm (a ++ (y ++ c)) :=
    List.Perm.append_left _ (h.append (List.Perm.refl c))
  simp only [List.append_assoc] at h1 ⊢
  exact h1

/-- Insertion-shape helper: split case, new child on the right. -/
theorem insert_shape_split_right (v : V) {t tB tf : PTree V}
    {p3 n3 : Nat} {res : Bool × PTree V}
    (hval : t.values = tB.values)
    (hres : res.2.values.Perm
      (if res.1 = true then v :: tf.values else tf.values))
    (hf : tf.values = []) :
    (PTree.node none (some t) (some res.2) p3 n3).values.Perm
      (if res.1 = true then v :: tB.values else tB.values) := by
  rcases res with ⟨ok, tr⟩
  rw [hf] at hres
  simp only [values_node, List.nil_append]
  rw [hval]
  cases ok
  · simp only [Bool.false_eq_true, if_false] at hres ⊢
    simpa using List.Perm.append_left tB.values hres
  · simp only [if_true] at hres ⊢
    exact (List.Perm.append_left tB.values hres).trans
      (List.perm_append_singleton v tB.values)

/-- Insertion-shape helper: split case, new child on the left. -/
theorem insert_shape_split_left (v : V) {t tB tf : PTree V}
    {p3 n3 : Nat} {res : Bool × PTree V}
    (hval : t.values = tB.values)
    (hres : res.2.values.Perm
      (if res.1 = true then v :: tf.values else tf.values))
    (hf : tf.values = []) :
    (PTree.node none (some res.2) (some t) p3 n3).values.Perm
      (if res.1 = true then v :: tB.values else tB.values) := by
  rcases res with ⟨ok, tr⟩
  rw [hf] at hres
  simp only [values_node, List.nil_append]
  rw [hval]
  cases ok
  · simp only [Bool.false_eq_true, if_false] at hres ⊢
    simpa using hres.append (List.Perm.refl tB.values)
  · simp only [if_true] at hres ⊢
    simpa using hres.append (List.Perm.refl tB.values)

/-- Insertion-shape helper: recurse into the right child. -/
theorem insert_shape_right (v : V) {d : Option V}
    {l ro : Option (PTree V)} {t0 : PTree V} {p n : Nat}
    {res : Bool × PTree V}
    (hres : res.2.values.Perm
      (if res.1 = true then v :: t0.values else t0.values))
    (hold : t0.values = (match ro with | some t => t.values | none => [])) :
    (PTree.node d l (some res.2) p n).values.Perm
      (if res.1 = true then v :: (PTree.node d l ro p n).values
       else (PTree.node d l ro p n).values) := by
  rcases res with ⟨ok, tr⟩
  simp only [values_node]
  rw [← hold]
  cases ok
  · simp only [Bool.false_eq_true, if_false] at hres ⊢
    exact perm_last_keep _ _ _ _ hres
  · simp only [if_true] at hres ⊢
    exact perm_last_cons _ _ _ _ v hres

/-- Insertion-shape helper: recurse into the left child. -/
theorem insert_shape_left (v : V) {d : Option V}
    {r lo : Option (PTree V)} {t0 : PTree V} {p n : Nat}
    {res : Bool × PTree V}
    (hres : res.2.values.Perm
      (if res.1 = true then v :: t0.values else t0.values))
    (hold : t0.values = (match lo with | some t => t.values | none => [])) :
    (PTree.node d (some res.2) r p n).values.Perm
      (if res.1 = true then v :: (PTree.node d lo r p n).values
       else (PTree.node d lo r p n).values) := by
  rcases res with ⟨ok, tr⟩
  simp only [values_node]
  rw [← hold]
  cases ok
  · simp only [Bool.false_eq_true, if_false] at hres ⊢
    exact perm_mid_keep _ _ _ _ hres
  · simp only [if_true] at hres ⊢
    exact perm_mid_cons _ _ _ _ v hres

/-- `insert` adds exactly the new value (when it reports success) and
otherwise leaves the stored values unchanged, as a multiset. -/
theorem insertGo_values (v : V) (key keyLen : Nat) :
    ∀ (fuel : Nat) (t : PTree V) (idx : Nat),
      ((insertGo v key keyLen fuel t idx).2.values).Perm
        (if (insertGo v key keyLen fuel t idx).1 then v :: t.values
         else t.values)
  | 0, t, idx => by simp [insertGo]
  | fuel + 1, .node d l r pre len, idx => by
      have IH := insertGo_values v key keyLen fuel
      simp only [insertGo]
      split
      case isTrue hsplit =>
        split
        case isTrue hbit => exact insert_shape_split_right v (values_skip d l r _ _ _ _) (IH _ _) rfl
        case isFalse hbit => exact insert_shape_split_left v (values_skip d l r _ _ _ _) (IH _ _) rfl
      case isFalse hsplit =>
        split
        case isTrue hshort =>
          split <;>
            · simp only [values_node, List.nil_append, List.append_nil,
                List.singleton_append, if_true]
              exact List.Perm.refl _
        case isFalse hshort =>
          split
          case isTrue hexact =>
            cases d
            · simp only [values_node, List.nil_append, List.append_nil,
                List.singleton_append, if_true]
              exact List.Perm.refl _
            · simp only [values_node, Bool.false_eq_true, if_false]
              exact List.Perm.refl _
          case isFalse hexact =>
            split
            case isTrue hbit =>
              cases r with
              | some t0 => exact insert_shape_right v (IH _ _) rfl
              | none => exact insert_shape_right v (IH _ _) rfl
            case isFalse hbit =>
              cases l with
              | some t0 => exact insert_shape_left v (IH _ _) rfl
              | none => exact insert_shape_left v (IH _ _) rfl

end PTree
end WizardsWallet

namespace WizardsWallet
namespace PTree

variable {V : Type}

/-- The success bit of `insert` does not depend on the inserted value
(it is decided by the key walk alone). -/
theorem insertGo_ok_indep (v w : V) (key keyLen : Nat) :
    ∀ (fuel : Nat) (t : PTree V) (idx : Nat),
      (insertGo v key keyLen fuel t idx).1 =
        (insertGo w key keyLen fuel t idx).1
  | 0, _, _ => rfl
  | fuel + 1, .node d l r pre len, idx => by
      have IH := insertGo_ok_indep v w key keyLen fuel
      simp only [insertGo]
      split
      case isTrue hsplit =>
        split
        case isTrue hbit => exact IH _ _
        case isFalse hbit => exact IH _ _
      case isFalse hsplit =>
        split
        case isTrue hshort => split <;> rfl
        case isFalse hshort =>
          split
          case isTrue hexact => cases d <;> rfl
          case isFalse hexact =>
            split
            case isTrue hbit =>
              cases r with
              | some t0 => exact IH _ _
              | none => exact IH _ _
            case isFalse hbit =>
              cases l with
              | some t0 => exact IH _ _
              | none => exact IH _ _

theorem insert_ok_indep (v w : V) (t : PTree V) (key keyLen : Nat) :
    (t.insert key keyLen v).1 = (t.insert key keyLen w).1 :=
  insertGo_ok_indep v w key keyLen (keyLen + 1) t 0

end PTree

theorem setBestTip_bestTip (c : Blockchain) (t : ChainNode) :
    (c.setBestTip t).bestTip = t := rfl

theorem setBestTip_bestHash (c : Blockchain) (t : ChainNode) :
    (c.setBestTip t).bestHash = headerHash t.block.header := by
  unfold Blockchain.setBestTip
  dsimp only

theorem setBestTip_tree (c : Blockchain) (t : ChainNode) :
    (c.setBestTip t).tree = c.tree := rfl

set_option maxHeartbeats 2000000 in
/-- C4: after a successful `add_header`, the best tip carries maximal
cumulative work among all entries of the index, it is itself an entry, and
the tip is replaced exactly when the new node's cumulative work strictly
exceeds the old best tip's. -/
theorem c4_best_tip_maximal
    (c : Blockchain) (h : BlockHeader) (prev : ChainNode) (c' : Blockchain)
    (hmax : ∀ n ∈ c.tree.values, n.totalWork ≤ c.bestTip.totalWork)
    (hbest : c.bestTip ∈ c.tree.values)
    (hprev : (if h.prevBlockhash = c.bestHash then some c.bestTip
              else c.tree.lookup h.prevBlockhash 256) = some prev)
    (hok : ∀ n : ChainNode, (c.tree.insert (headerHash h) 256 n).1 = true)
    (hadd : c.addHeader h = some (true, c')) :
    (∀ n ∈ c'.tree.values, n.totalWork ≤ c'.bestTip.totalWork) ∧
    c'.bestTip ∈ c'.tree.values ∧
    (addU (workOf h.bits) prev.totalWork > c.bestTip.totalWork →
      c'.bestTip.totalWork = addU (workOf h.bits) prev.totalWork ∧
      c'.bestHash = headerHash h) ∧
    (¬ addU (workOf h.bits) prev.totalWork > c.bestTip.totalWork →
      c'.bestTip = c.bestTip ∧ c'.bestHash = c.bestHash) := by
  simp only [Blockchain.addHeader, Blockchain.realAddBlock] at hadd
  rw [hprev] at hadd
  dsimp only at hadd
  cases hdiff : c.computeDifficulty prev with
  | none => rw [hdiff] at hadd; exact absurd hadd (by simp)
  | some difficulty =>
      rw [hdiff] at hadd
      dsimp only at hadd
      split at hadd
      case isTrue hnv => simp at hadd
      case isFalse hnv =>
        have ho := hok (ChainNode.mk (Block.mk h [])
          (addU (workOf h.bits) prev.totalWork) difficulty
          ((prev.height + 1) % 2 ^ 32) false)
        simp only [PTree.insert] at ho
        have hins := PTree.insertGo_values
          (ChainNode.mk (Block.mk h [])
            (addU (workOf h.bits) prev.totalWork) difficulty
            ((prev.height + 1) % 2 ^ 32) false)
          (headerHash h) 256 (256 + 1) c.tree 0
        rw [ho] at hins
        rw [if_pos rfl] at hins
        split at hadd
        case isTrue hgt =>
          simp only [Option.some.injEq, Prod.mk.injEq, true_and] at hadd
          subst hadd
          refine ⟨?_, ?_, ?_, ?_⟩
          · intro n hn
            rw [setBestTip_tree] at hn
            rw [setBestTip_bestTip]
            have hm := List.mem_cons.mp (hins.mem_iff.mp hn)
            rcases hm with rfl | hmem
            · exact Nat.le_refl _
            · exact Nat.le_trans (hmax n hmem) (Nat.le_of_lt hgt)
          · rw [setBestTip_tree, setBestTip_bestTip]
            exact hins.mem_iff.mpr (List.mem_cons_self _ _)
          · intro _
            rw [setBestTip_bestTip, setBestTip_bestHash]
            exact ⟨rfl, rfl⟩
          · intro hng
            exact absurd hgt hng
        case isFalse hle =>
          simp only [Option.some.injEq, Prod.mk.injEq, true_and] at hadd
          subst hadd
          refine ⟨?_, ?_, ?_, ?_⟩
          · intro n hn
            have hm := List.mem_cons.mp (hins.mem_iff.mp hn)
            rcases hm with rfl | hmem
            · exact Nat.not_lt.mp hle
            · exact hmax n hmem
          · exact hins.mem_iff.mpr (List.mem_cons_of_mem _ hbest)
          · intro hgt
            exact absurd hgt hle
          · intro _
            exact ⟨rfl, rfl⟩

set_option maxHeartbeats 16000000 in
set_option maxRecDepth 10000000 in
/-- **C4 (witness).**  A concrete successful `add_header` of the first
scenario header onto the genesis chain: all hypotheses hold and the new
tip is the maximal-work entry. -/
theorem c4_best_tip_maximal_witness :
    ((∀ n ∈ chain0.tree.values, n.totalWork ≤ chain0.bestTip.totalWork) ∧
     chain0.bestTip ∈ chain0.tree.values ∧
     ((if (scenHeader 1).prevBlockhash = chain0.bestHash then
         some chain0.bestTip
       else chain0.tree.lookup (scenHeader 1).prevBlockhash 256) =
        some chain0.bestTip) ∧
     (∀ n : ChainNode,
       (chain0.tree.insert (headerHash (scenHeader 1)) 256 n).1 = true) ∧
     chain0.addHeader (scenHeader 1) = some (true, chain1)) ∧
    ((∀ n ∈ chain1.tree.values, n.totalWork ≤ chain1.bestTip.totalWork) ∧
     chain1.bestTip ∈ chain1.tree.values ∧
     (addU (workOf (scenHeader 1).bits) chain0.bestTip.totalWork >
        chain0.bestTip.totalWork →
       chain1.bestTip.totalWork =
         addU (workOf (scenHeader 1).bits) chain0.bestTip.totalWork ∧
       chain1.bestHash = headerHash (scenHeader 1)) ∧
     (¬ addU (workOf (scenHeader 1).bits) chain0.bestTip.totalWork >
        chain0.bestTip.totalWork →
       chain1.bestTip = chain0.bestTip ∧
       chain1.bestHash = chain0.bestHash)) := by
  have h1 : ∀ n ∈ chain0.tree.values,
      n.totalWork ≤ chain0.bestTip.totalWork := by decide!
  have h2 : chain0.bestTip ∈ chain0.tree.values := by decide!
  have h3 : (if (scenHeader 1).prevBlockhash = chain0.bestHash then
        some chain0.bestTip
      else chain0.tree.lookup (scenHeader 1).prevBlockhash 256) =
        some chain0.bestTip := by decide!
  have h4 : ∀ n : ChainNode,
      (chain0.tree.insert (headerHash (scenHeader 1)) 256 n).1 = true :=
    fun n => (PTree.insert_ok_indep n (scenNode 0) chain0.tree
      (headerHash (scenHeader 1)) 256).trans (by decide!)
  have h5 : chain0.addHeader (scenHeader 1) = some (true, chain1) := by rfl
  exact ⟨⟨h1, h2, h3, h4, h5⟩,
    c4_best_tip_maximal chain0 (scenHeader 1) chain0.bestTip chain1
      h1 h2 h3 h4 h5⟩

end WizardsWallet

namespace WizardsWallet

theorem stepMany_none (c : Blockchain) : ∀ k, c.stepMany k none = none
  | 0 => rfl
  | _ + 1 => rfl

/-- On a list of ancestors linked by `prev`, the skip loop lands `k`
ancestors deeper, or dies when that runs off the list. -/
theorem stepMany_anc (c : Blockchain) (anc : List ChainNode)
    (hstep : ∀ i n, anc.get? i = some n → c.nodePrev n = anc.get? (i + 1)) :
    ∀ (k d : Nat), d < anc.length →
      c.stepMany k (anc.get? d) =
        if d + k < anc.length then anc.get? (d + k) else none
  | 0, d, hd => by
      simp only [Blockchain.stepMany, Nat.add_zero, if_pos hd]
  | k + 1, d, hd => by
      have hget : anc.get? d = some (anc.get ⟨d, hd⟩) := List.get?_eq_get hd
      rw [hget]
      simp only [Blockchain.stepMany]
      rw [hstep d _ hget]
      by_cases h1 : d + 1 < anc.length
      · rw [stepMany_anc c anc hstep k (d + 1) h1]
        have he : d + 1 + k = d + (k + 1) := by omega
        rw [he]
      · have hn : anc.get? (d + 1) = none :=
          List.get?_eq_none.mpr (Nat.not_lt.mp h1)
        rw [hn, stepMany_none, if_neg (by omega)]

/-- The locator walk on a `prev`-linked ancestor list follows exactly the
depth schedule of `codeDepthsGo`. -/
theorem locGo_eq_codeDepths (c : Blockchain) (anc : List ChainNode)
    (dflt : ChainNode)
    (hstep : ∀ i n, anc.get? i = some n → c.nodePrev n = anc.get? (i + 1)) :
    ∀ (fuel : Nat) (dopt : Option Nat) (count skip : Nat),
      (∀ d, dopt = some d → d < anc.length) →
      c.locGo fuel (dopt.bind anc.get?) count skip =
        (codeDepthsGo anc.length fuel dopt count skip).map
          (fun d => headerHash (anc.getD d dflt).block.header)
  | 0, dopt, count, skip, _ => by
      cases dopt <;> rfl
  | fuel + 1, none, count, skip, _ => rfl
  | fuel + 1, some d, count, skip, hbound => by
      have hd : d < anc.length := hbound d rfl
      have hget : anc.get? d = some (anc.get ⟨d, hd⟩) := List.get?_eq_get hd
      have hgetD : anc.getD d dflt = anc.get ⟨d, hd⟩ := by
        rw [List.getD_eq_getElem?_getD, ← List.get?_eq_getElem?, hget]
        rfl
      show c.locGo (fuel + 1) (anc.get? d) count skip = _
      rw [hget]
      simp only [Blockchain.locGo, codeDepthsGo, List.map_cons]
      refine congrArg₂ _ (by rw [hgetD]) ?_
      rw [← hget, stepMany_anc c anc hstep skip d hd]
      by_cases h1 : d + skip < anc.length
      · rw [if_pos h1, if_pos h1]
        have := locGo_eq_codeDepths c anc dflt hstep fuel (some (d + skip))
          (count + 1) (if count + 1 > 10 then skip * 2 else skip)
          (by intro d' hd'; injection hd' with hd'; omega)
        simp only [Option.some_bind] at this
        exact this
      · rw [if_neg h1, if_neg h1]
        have := locGo_eq_codeDepths c anc dflt hstep fuel none
          (count + 1) (if count + 1 > 10 then skip * 2 else skip)
          (by intro d' hd'; cases hd')
        simp only [Option.none_bind] at this
        exact this

/-- C9: on every chain whose best-chain ancestors form a `prev`-linked
list `anc` (tip first, genesis last), `locator_hashes` returns the
ancestor hashes at the depths of `codeDepths`: the first **eleven**
positions step by 1, and the step doubles for each position thereafter
(the walk dying at the genesis or off the chain). -/
theorem c9_locator_schedule (c : Blockchain) (anc : List ChainNode)
    (hlen : anc.length = c.bestTip.height + 1)
    (hhead : anc.get? 0 = some c.bestTip)
    (hstep : ∀ i n, anc.get? i = some n → c.nodePrev n = anc.get? (i + 1)) :
    c.locatorHashes =
      (codeDepths anc.length).map
        (fun d => headerHash (anc.getD d c.bestTip).block.header) := by
  have h0 : 0 < anc.length := by omega
  have := locGo_eq_codeDepths c anc c.bestTip hstep (anc.length + 1)
    (some 0) 0 1 (by intro d hd; injection hd with hd; omega)
  simp only [Option.some_bind] at this
  rw [hhead] at this
  unfold Blockchain.locatorHashes codeDepths
  rw [show c.bestTip.height + 2 = anc.length + 1 from by omega]
  exact this

/-- **C9 (counterexample).**  On the thirteen-node scenario chain the
code's locator visits depths 0,1,…,11 (eleven unit steps), not the
claimed 0,1,…,10,12 (ten unit steps then a doubled step): the two hash
lists differ. -/
theorem c9_locator_counterexample :
    scenChain13.locatorHashes =
      (codeDepths 13).map
        (fun d => headerHash
          (scenAncestors.getD d scenChain13.bestTip).block.header) ∧
    scenChain13.locatorHashes ≠
      (claimDepths 13).map
        (fun d => headerHash
          (scenAncestors.getD d scenChain13.bestTip).block.header) := by
  constructor
  · decide!
  · decide!

set_option maxHeartbeats 16000000 in
set_option maxRecDepth 10000000 in
/-- **C9 (witness).**  The two-node chain `chain1` (genesis plus one
header): its ancestor list satisfies the linkage hypotheses and the
locator is the code-schedule map. -/
theorem c9_locator_schedule_witness :
    (([chain1.bestTip, chain0.bestTip] : List ChainNode).length =
      chain1.bestTip.height + 1) ∧
    ([chain1.bestTip, chain0.bestTip] : List ChainNode).get? 0 =
      some chain1.bestTip ∧
    (∀ i n, ([chain1.bestTip, chain0.bestTip] : List ChainNode).get? i =
        some n →
      chain1.nodePrev n =
        ([chain1.bestTip, chain0.bestTip] : List ChainNode).get? (i + 1)) ∧
    chain1.locatorHashes =
      (codeDepths 2).map
        (fun d => headerHash
          (([chain1.bestTip, chain0.bestTip] : List ChainNode).getD d
            chain1.bestTip).block.header) := by
  have h1 : (([chain1.bestTip, chain0.bestTip] : List ChainNode).length =
      chain1.bestTip.height + 1) := by decide!
  have h2 : ([chain1.bestTip, chain0.bestTip] : List ChainNode).get? 0 =
      some chain1.bestTip := rfl
  have h3 : ∀ i n,
      ([chain1.bestTip, chain0.bestTip] : List ChainNode).get? i =
        some n →
      chain1.nodePrev n =
        ([chain1.bestTip, chain0.bestTip] : List ChainNode).get? (i + 1) := by
    intro i n h
    match i with
    | 0 =>
        rw [List.get?_cons_zero, Option.some_inj] at h
        rw [← h]
        decide!
    | 1 =>
        rw [List.get?_cons_succ, List.get?_cons_zero, Option.some_inj] at h
        rw [← h]
        decide!
    | (j + 2) =>
        rw [List.get?_cons_succ, List.get?_cons_succ, List.get?_nil] at h
        cases h
  exact ⟨h1, h2, h3,
    c9_locator_schedule chain1 [chain1.bestTip, chain0.bestTip] h1 h2 h3⟩

end WizardsWallet
